import Mathlib

/-!
Verification of the nbmail MJML tag-tree core (`src/nbmail/mjml/_core.py`) and
its image-inlining pass (`src/nbmail/mjml/image_processor.py`).

The Python code is shallowly embedded:

* `MJMLTag` becomes a (mutual, nested) inductive tree whose `content` field
  stores the Python value held in `self.content` (`ChildArg.none` plays the
  role of Python `None`);
* attribute dictionaries (`TagAttrDict`, a `dict` subclass) become ordered
  association lists with Python-dict insertion semantics (`dictInsert`);
* `bytes` values become `List Nat` (each element a byte, i.e. `< 256`), and
  `io.BytesIO` handles become the `AttrVal.stream` constructor carrying the
  buffer contents returned by `.getvalue()`;
* fallible constructors and renderers (`raise` in Python) return
  `Except String _` carrying the raised message;
* `uuid.uuid4().hex[:8]` is modelled by a caller-supplied name supply
  `gen : Nat → String` consumed left to right, so the hypotheses of theorems
  about filename uniqueness state exactly the freshness property that the
  UUID generator provides.
-/

namespace NbMail

/-! ### Characters and Python `str()` / `repr()` of byte strings -/

/-- Single-quote character, via its code point. -/
def squote : Char := Char.ofNat 39

/-- Double-quote character, via its code point. -/
def dquote : Char := Char.ofNat 34

/-- Backslash character, via its code point. -/
def bslash : Char := Char.ofNat 92

/-- Lower-case hexadecimal digit of a value below 16. -/
def hexDigit (n : Nat) : Char := "0123456789abcdef".toList.getD n '0'

/-- Python `repr` of one byte inside a bytes literal delimited by `quote`
(CPython `bytesobject.c`): backslash and the quote are backslash-escaped,
tab / newline / carriage return use their two-character escapes, other
non-printable bytes use `\xNN`, printable ASCII is emitted literally. -/
def byteReprChars (quote : Char) (x : Nat) : List Char :=
  if x = 92 then [bslash, bslash]
  else if Char.ofNat x = quote then [bslash, quote]
  else if x = 9 then [bslash, 't']
  else if x = 10 then [bslash, 'n']
  else if x = 13 then [bslash, 'r']
  else if x < 32 ∨ 127 ≤ x then [bslash, 'x', hexDigit (x / 16 % 16), hexDigit (x % 16)]
  else [Char.ofNat x]

/-- Concatenation of a list of character lists. -/
def charConcat : List (List Char) → List Char
  | [] => []
  | l :: rest => l ++ charConcat rest

/-- Python `str()` (= `repr()`) of a `bytes` value: `b'...'`, switching to
double quotes exactly when the data contains a single quote but no double
quote. -/
def pyBytesRepr (b : List Nat) : String :=
  let quote := if b.contains 39 && !(b.contains 34) then dquote else squote
  ⟨'b' :: quote :: (charConcat (b.map (byteReprChars quote)) ++ [quote])⟩

/-! ### Attribute values

`TagAttrValue = Union[str, float, bool, None, bytes, BytesIO]` is the type a
caller may pass for an attribute; at runtime Python also lets unsupported
binary-like values such as `bytearray` through, so the embedding includes
them.  `AttrVal` is what `TagAttrDict` actually stores
(`Dict[str, Union[str, bytes, BytesIO]]`). -/

/-- Runtime value passed as an attribute value (`TagAttrValue`, plus the
unsupported binary-like `bytearray` used to probe the coercion path).
`float` carries the text of the Python float's `str()`; `stream` models an
`io.BytesIO` whose buffer holds the given bytes. -/
inductive AttrArg where
  | str (s : String)
  | float (text : String)
  | bool (b : Bool)
  | none
  | bytes (b : List Nat)
  | stream (b : List Nat)
  | bytearray (b : List Nat)
  deriving DecidableEq

/-- Value stored in a `TagAttrDict`: a string, a `bytes` payload, or a
`BytesIO` handle (`stream`). -/
inductive AttrVal where
  | str (s : String)
  | bytes (b : List Nat)
  | stream (b : List Nat)
  deriving DecidableEq

/-- Python `str()` of an attribute argument.  `bytes`/`stream` never reach
this in `TagAttrDict` (they are preserved unconverted); for a `stream` the
real `str()` contains the object's memory address, which has no shallow
embedding, so an address-free placeholder is used for totality only. -/
def pyStrArg : AttrArg → String
  | .str s => s
  | .float t => t
  | .bool b => if b then "True" else "False"
  | .none => "None"
  | .bytes b => pyBytesRepr b
  | .stream _ => "<_io.BytesIO object>"
  | .bytearray b => "bytearray(" ++ pyBytesRepr b ++ ")"

/-- One insertion step of `TagAttrDict.update` (`_core.py` lines 36-43):
`None` values are skipped, `bytes`/`BytesIO` are preserved as-is, everything
else is coerced with `str()`. -/
def attrStore : AttrArg → Option AttrVal
  | .none => Option.none
  | .bytes b => some (.bytes b)
  | .stream b => some (.stream b)
  | v => some (.str (pyStrArg v))

/-! ### Ordered dictionaries (Python `dict` insertion semantics) -/

/-- Keys of an association list. -/
def dictKeys {α : Type} (d : List (String × α)) : List String := d.map Prod.fst

/-- Python `d[k] = v` on an insertion-ordered dict: replace in place if the
key exists, otherwise append. -/
def dictInsert {α : Type} (d : List (String × α)) (k : String) (v : α) :
    List (String × α) :=
  if d.any (fun p => p.1 == k) then d.map (fun p => if p.1 == k then (k, v) else p)
  else d ++ [(k, v)]

/-- Python `d[k]` / `d.get(k)`: the value at `k`, if present. -/
def dictGet {α : Type} (d : List (String × α)) (k : String) : Option α :=
  (d.find? (fun p => p.1 == k)).map Prod.snd

/-- `TagAttrDict.update(mapping)`: fold the stored coercion over the items of
one mapping, in order. -/
def tagAttrUpdate (d : List (String × AttrVal)) (args : List (String × AttrArg)) :
    List (String × AttrVal) :=
  args.foldl
    (fun d p =>
      match attrStore p.2 with
      | Option.none => d
      | some w => dictInsert d p.1 w)
    d

/-- The attribute dictionary built by `MJMLTag.__init__` from its optional
`attributes` parameter: start from an empty `TagAttrDict`, then `update`. -/
def attrsOfArgs (attributes : Option (List (String × AttrArg))) :
    List (String × AttrVal) :=
  match attributes with
  | Option.none => []
  | some l => tagAttrUpdate [] l

/-! ### Base64 (Python `base64.b64encode(...).decode("utf-8")`) -/

/-- The standard base64 alphabet. -/
def b64alphabet : List Char :=
  "ABCDEFGHIJKLMNOPQRSTUVWXYZabcdefghijklmnopqrstuvwxyz0123456789+/".toList

/-- Character of a 6-bit group. -/
def b64char (n : Nat) : Char := b64alphabet.getD n 'A'

/-- Index of a base64 character in the alphabet. -/
def b64val (c : Char) : Nat := b64alphabet.findIdx (fun x => x == c)

/-- RFC 4648 base64 encoding of a byte list, three bytes at a time with `=`
padding, as performed by `base64.b64encode`. -/
def b64encodeCore : List Nat → List Char
  | [] => []
  | [a] => [b64char (a / 4), b64char (a % 4 * 16), '=', '=']
  | [a, b] => [b64char (a / 4), b64char (a % 4 * 16 + b / 16), b64char (b % 16 * 4), '=']
  | a :: b :: c :: rest =>
      b64char (a / 4) :: b64char (a % 4 * 16 + b / 16) ::
      b64char (b % 16 * 4 + c / 64) :: b64char (c % 64) :: b64encodeCore rest

/-- Base64 decoding, the inverse used to state the round-trip property. -/
def b64decodeCore : List Char → List Nat
  | c1 :: c2 :: c3 :: c4 :: rest =>
      if c3 = '=' then [b64val c1 * 4 + b64val c2 / 16]
      else if c4 = '=' then
        [b64val c1 * 4 + b64val c2 / 16, b64val c2 % 16 * 16 + b64val c3 / 4]
      else
        (b64val c1 * 4 + b64val c2 / 16) :: (b64val c2 % 16 * 16 + b64val c3 / 4) ::
        (b64val c3 % 4 * 64 + b64val c4) :: b64decodeCore rest
  | _ => []

/-- `base64.b64encode(bytes(b)).decode("utf-8")`. -/
def b64encode (b : List Nat) : String := ⟨b64encodeCore b⟩

/-- Base64 decoding of a string back to bytes. -/
def b64decode (s : String) : List Nat := b64decodeCore s.data

/-! ### The MJML tag tree (`MJMLTag`, `_core.py`) -/

mutual
/-- Runtime value passed as a positional child (`TagChild`) or stored as
`self.content`: a tag, a string, a float (identified by its `str()` text),
an int, a bool, Python `None`, or a sequence (list/tuple). -/
inductive ChildArg where
  | tag (t : MJMLTag)
  | str (s : String)
  | float (text : String)
  | int (n : Int)
  | bool (b : Bool)
  | none
  | seq (xs : List ChildArg)

/-- The `MJMLTag` object: tag name, attribute dictionary, children list,
`content` (`ChildArg.none` plays Python `None`), and the `_is_leaf` flag. -/
inductive MJMLTag where
  | mk (tagName : String) (attrs : List (String × AttrVal))
      (children : List ChildArg) (content : ChildArg) (isLeaf : Bool)
end

def MJMLTag.tagName : MJMLTag → String
  | .mk n _ _ _ _ => n

def MJMLTag.attrs : MJMLTag → List (String × AttrVal)
  | .mk _ a _ _ _ => a

def MJMLTag.children : MJMLTag → List ChildArg
  | .mk _ _ c _ _ => c

def MJMLTag.content : MJMLTag → ChildArg
  | .mk _ _ _ c _ => c

def MJMLTag.isLeaf : MJMLTag → Bool
  | .mk _ _ _ _ l => l

/-- Replace the children list (models Python appends into
`new_tag.children` after construction). -/
def MJMLTag.setChildren : MJMLTag → List ChildArg → MJMLTag
  | .mk n a _ c l, cs => .mk n a cs c l

/-- Child collection loop of `MJMLTag.__init__` for container tags
(`_core.py` lines 109-118): strings, floats, `None` and tags are appended;
non-string sequences are extended (one level); anything else — ints and
bools included — is silently dropped. -/
def collectChildren : List ChildArg → List ChildArg
  | [] => []
  | .str s :: rest => .str s :: collectChildren rest
  | .float t :: rest => .float t :: collectChildren rest
  | .none :: rest => .none :: collectChildren rest
  | .tag t :: rest => .tag t :: collectChildren rest
  | .seq xs :: rest => xs ++ collectChildren rest
  | .int _ :: rest => collectChildren rest
  | .bool _ :: rest => collectChildren rest

/-- Message raised for a leaf tag given more than one positional argument. -/
def leafArityMsg (tagName : String) : String :=
  "<" ++ tagName ++ "> is a leaf tag and accepts only one positional argument for content."

/-- Python `type(x).__name__` for the embedded child values. -/
def pyTypeName : ChildArg → String
  | .tag _ => "MJMLTag"
  | .str _ => "str"
  | .float _ => "float"
  | .int _ => "int"
  | .bool _ => "bool"
  | .none => "NoneType"
  | .seq _ => "list"

/-- Message raised for invalid leaf content. -/
def leafContentMsg (tagName : String) (c : ChildArg) : String :=
  "<" ++ tagName ++ "> content must be a string, int, or float, got " ++ pyTypeName c

/-- The leaf content check `self.content is not None and not
isinstance(self.content, (str, int, float))` passes iff the content is
`None`, a string, an int (bools are ints in Python), or a float. -/
def leafContentOk : ChildArg → Bool
  | .none => true
  | .str _ => true
  | .int _ => true
  | .float _ => true
  | .bool _ => true
  | .tag _ => false
  | .seq _ => false

/-- Content resolution of `MJMLTag.__init__` for leaf tags with at most one
positional argument: the argument if given, else the `content` keyword. -/
def resolveContent (args : List ChildArg) (content : ChildArg) : ChildArg :=
  match args with
  | [] => content
  | a :: _ => a

/-- `MJMLTag.__init__` (`_core.py` lines 49-122): returns the constructed
tag, or the message of the `TypeError` it raises. -/
def mkTag (tagName : String) (args : List ChildArg)
    (attributes : Option (List (String × AttrArg))) (content : ChildArg)
    (isLeaf : Bool) : Except String MJMLTag :=
  if isLeaf then
    match args with
    | [] =>
        if leafContentOk content then
          .ok (.mk tagName (attrsOfArgs attributes) [] content true)
        else .error (leafContentMsg tagName content)
    | [a] =>
        if leafContentOk a then
          .ok (.mk tagName (attrsOfArgs attributes) [] a true)
        else .error (leafContentMsg tagName a)
    | _ => .error (leafArityMsg tagName)
  else
    .ok (.mk tagName (attrsOfArgs attributes) (collectChildren args) content false)

/-! ### Serialization (`MJMLTag._to_mjml`) -/

/-- Python `str()` of a stored child/content value.  A `seq` (a Python list)
as renderable content is unreachable from the constructors used in this
development, so its repr is a placeholder; `tag` renders via
`MJMLTag.__repr__`. -/
def pyStrChild : ChildArg → String
  | .str s => s
  | .float t => t
  | .int n => toString n
  | .bool b => if b then "True" else "False"
  | .none => "None"
  | .tag t => "<MJMLTag(" ++ t.tagName ++ ")>"
  | .seq _ => "<list>"

/-- The value is `bytes` or a `BytesIO` handle. -/
def isBinaryVal : AttrVal → Bool
  | .bytes _ => true
  | .stream _ => true
  | .str _ => false

/-- The guard of `_to_mjml` and `_process_tag`: `tagName == "mj-image" and
"src" in attrs and isinstance(attrs["src"], (bytes, BytesIO))`; returns the
binary source value when the guard holds. -/
def binarySrcAt (tagName : String) (attrs : List (String × AttrVal)) :
    Option AttrVal :=
  if tagName = "mj-image" then
    match dictGet attrs "src" with
    | some v => if isBinaryVal v then some v else Option.none
    | Option.none => Option.none
  else Option.none

/-- The binary-image guard applied to a node. -/
def binarySrcOf (t : MJMLTag) : Option AttrVal := binarySrcAt t.tagName t.attrs

/-- The `ValueError` message of `_to_mjml` for a raw binary image source. -/
def rawBytesMsg : String :=
  "Cannot render MJML with BytesIO/bytes in image src attribute. Pass the MJMLTag object directly to mjml_to_email() instead of calling _to_mjml() first. Example: i_email = mjml_to_email(doc)"

/-- Double-quote as a one-character string. -/
def dqS : String := ⟨[dquote]⟩

/-- f-string interpolation `str()` of a stored attribute value.  As with
`pyStrArg`, the true `str()` of a `BytesIO` contains a memory address, so a
placeholder stands in; no theorem relies on its text. -/
def attrValStr : AttrVal → String
  | .str s => s
  | .bytes b => pyBytesRepr b
  | .stream _ => "<_io.BytesIO object>"

/-- One attribute rendered as `k="v"`. -/
def attrPairStr (p : String × AttrVal) : String :=
  p.1 ++ "=" ++ dqS ++ attrValStr p.2 ++ dqS

/-- The `attr_str` of `_to_mjml`: empty for no attributes, else a leading
space and the space-joined `k="v"` pairs. -/
def attrString (attrs : List (String × AttrVal)) : String :=
  if attrs.isEmpty then "" else " " ++ String.intercalate " " (attrs.map attrPairStr)

/-- Indentation padding. -/
def padStr (n : Nat) : String := ⟨List.replicate n ' '⟩

mutual
/-- `MJMLTag._to_mjml` (`_core.py` lines 124-177): raise on a binary image
source at this node, else render attributes, then content (if not `None`)
or the flattened children joined by `eol`, and wrap in the tag markup. -/
def MJMLTag.toMjml (t : MJMLTag) (indent : Nat) (eol : String) :
    Except String String :=
  match t with
  | .mk tagName attrs children content _ =>
    if (binarySrcAt tagName attrs).isSome then .error rawBytesMsg
    else
      let innerE : Except String String :=
        match content with
        | .none =>
            match childStrs children indent eol with
            | .error e => .error e
            | .ok l => .ok (String.intercalate eol l)
        | c => .ok (pyStrChild c)
      match innerE with
      | .error e => .error e
      | .ok inner =>
        if inner = "" then
          .ok (padStr indent ++ "<" ++ tagName ++ attrString attrs ++ "></" ++ tagName ++ ">")
        else
          .ok (padStr indent ++ "<" ++ tagName ++ attrString attrs ++ ">" ++ eol ++ inner
            ++ eol ++ padStr indent ++ "</" ++ tagName ++ ">")

/-- The `_flatten` generator combined with the child-rendering loop of
`_to_mjml`: `None` is skipped, tags render recursively at `indent + 2`,
strings and floats render via `str()`, and any other stored child — ints,
bools, nested sequences — is silently dropped. -/
def childStrs (cs : List ChildArg) (indent : Nat) (eol : String) :
    Except String (List String) :=
  match cs with
  | [] => .ok []
  | .tag t :: rest =>
      match t.toMjml (indent + 2) eol with
      | .error e => .error e
      | .ok s =>
          match childStrs rest indent eol with
          | .error e => .error e
          | .ok l => .ok (s :: l)
  | .str s :: rest =>
      match childStrs rest indent eol with
      | .error e => .error e
      | .ok l => .ok (s :: l)
  | .float txt :: rest =>
      match childStrs rest indent eol with
      | .error e => .error e
      | .ok l => .ok (txt :: l)
  | .int _ :: rest => childStrs rest indent eol
  | .bool _ :: rest => childStrs rest indent eol
  | .none :: rest => childStrs rest indent eol
  | .seq _ :: rest => childStrs rest indent eol
end

/-! ### The image inliner (`image_processor.py`) -/

/-- `_convert_to_bytes` (`image_processor.py` lines 19-47): `BytesIO`
drains via `.getvalue()`, `bytes` passes through, anything else raises the
`Unsupported image type` `TypeError`. -/
def convertToBytes : AttrVal → Except String (List Nat)
  | .stream b => .ok b
  | .bytes b => .ok b
  | .str _ => .error "Unsupported image type: str. Expected bytes or BytesIO."

/-- The CID filename `f"plot_{cid_id}.png"` built from one fresh token of
the UUID supply. -/
def cidName (token : String) : String := "plot_" ++ token ++ ".png"

/-- Reinterpret a stored attribute value as the runtime value
`dict(tag.attrs)` hands back to `TagAttrDict` when a tag is rebuilt. -/
def argOfVal : AttrVal → AttrArg
  | .str s => .str s
  | .bytes b => .bytes b
  | .stream b => .stream b

/-- The plain-`dict` copy `dict(tag.attrs)` as a list of runtime values. -/
def dictCopyArgs (attrs : List (String × AttrVal)) : List (String × AttrArg) :=
  attrs.map (fun p => (p.1, argOfVal p.2))

mutual
/-- `_process_mjml_images._process_tag` (`image_processor.py` lines
119-156): on an `mj-image` node with a binary `src`, read the bytes, encode
them to base64, record them in the attachment dict under a fresh
`plot_<token>.png` key, and rebuild the node with `src` replaced by the
`cid:` reference; on every other node, rebuild it from a copy of its
attributes; in both cases the children are then appended, tags being
processed recursively in order.  The counter `ctr` indexes the UUID supply
`gen`; rebuilding goes through `mkTag` (= `MJMLTag.__init__`), whose raised
errors propagate. -/
def processTag (gen : Nat → String) (t : MJMLTag) (ctr : Nat)
    (acc : List (String × String)) :
    Except String (MJMLTag × Nat × List (String × String)) :=
  match t with
  | .mk tagName attrs children content isLeaf =>
    match binarySrcAt tagName attrs with
    | some v =>
        (match convertToBytes v with
        | .error e => .error e
        | .ok imageBytes =>
          let b64 := b64encode imageBytes
          let cid := cidName (gen ctr)
          let acc1 := dictInsert acc cid b64
          let newAttrs := dictInsert (dictCopyArgs attrs) "src" (AttrArg.str ("cid:" ++ cid))
          match mkTag tagName [] (some newAttrs) content isLeaf with
          | .error e => .error e
          | .ok newTag =>
            match processChildren gen children (ctr + 1) acc1 with
            | .error e => .error e
            | .ok (cs, ctr2, acc2) => .ok (newTag.setChildren cs, ctr2, acc2))
    | Option.none =>
        match mkTag tagName [] (some (dictCopyArgs attrs)) content isLeaf with
        | .error e => .error e
        | .ok newTag =>
          match processChildren gen children ctr acc with
          | .error e => .error e
          | .ok (cs, ctr2, acc2) => .ok (newTag.setChildren cs, ctr2, acc2)

/-- The child loop of `_process_tag`: tag children are processed
recursively, all other children are appended as they are. -/
def processChildren (gen : Nat → String) (cs : List ChildArg) (ctr : Nat)
    (acc : List (String × String)) :
    Except String (List ChildArg × Nat × List (String × String)) :=
  match cs with
  | [] => .ok ([], ctr, acc)
  | .tag c :: rest =>
      match processTag gen c ctr acc with
      | .error e => .error e
      | .ok (c2, ctr1, acc1) =>
        match processChildren gen rest ctr1 acc1 with
        | .error e => .error e
        | .ok (rest2, ctr2, acc2) => .ok (.tag c2 :: rest2, ctr2, acc2)
  | c :: rest =>
      match processChildren gen rest ctr acc with
      | .error e => .error e
      | .ok (rest2, ctr2, acc2) => .ok (c :: rest2, ctr2, acc2)
end

/-- `_process_mjml_images` (`image_processor.py` lines 50-177): process the
whole tree starting from an empty attachment dict, returning the rewritten
tree and the dict mapping CID filenames to base64 data. -/
def processMjmlImages (gen : Nat → String) (t : MJMLTag) :
    Except String (MJMLTag × List (String × String)) :=
  match processTag gen t 0 [] with
  | .error e => .error e
  | .ok (t2, _, acc) => .ok (t2, acc)

/-! ### Specification-side views of the inliner

`tagSrcs` lists, in the depth-first order of `_process_tag` (node first,
then children left to right), the byte payloads of the binary image sources
of a tree; `rewTag` is the pure rewrite the inliner performs on a
well-formed tree; `entries` is the attachment list it accumulates. -/

/-- Byte payload of a stored attribute value (`bytes` content, or the
`.getvalue()` of a `BytesIO`). -/
def bytesOfBinary : AttrVal → List Nat
  | .bytes b => b
  | .stream b => b
  | .str _ => []

mutual
/-- Depth-first list of the binary image payloads of a tree. -/
def tagSrcs : MJMLTag → List (List Nat)
  | .mk tagName attrs children _ _ =>
    match binarySrcAt tagName attrs with
    | some v => bytesOfBinary v :: childrenSrcs children
    | Option.none => childrenSrcs children

/-- Depth-first binary image payloads of a children list (only direct tag
children are traversed, as in `_process_tag`). -/
def childrenSrcs : List ChildArg → List (List Nat)
  | [] => []
  | .tag c :: rest => tagSrcs c ++ childrenSrcs rest
  | _ :: rest => childrenSrcs rest
end

mutual
/-- The pure tree rewrite performed by `_process_tag` on a well-formed
tree: replace each binary image `src` in place by its `cid:` reference,
numbering the consumed UUID tokens depth-first from `ctr`. -/
def rewTag (gen : Nat → String) (ctr : Nat) : MJMLTag → MJMLTag
  | .mk tagName attrs children content isLeaf =>
    match binarySrcAt tagName attrs with
    | some _ =>
        .mk tagName (dictInsert attrs "src" (AttrVal.str ("cid:" ++ cidName (gen ctr))))
          (rewChildren gen (ctr + 1) children) content isLeaf
    | Option.none =>
        .mk tagName attrs (rewChildren gen ctr children) content isLeaf

/-- The pure rewrite of a children list. -/
def rewChildren (gen : Nat → String) (ctr : Nat) : List ChildArg → List ChildArg
  | [] => []
  | .tag c :: rest =>
      .tag (rewTag gen ctr c) :: rewChildren gen (ctr + (tagSrcs c).length) rest
  | c :: rest => c :: rewChildren gen ctr rest
end

/-- Attachment entries produced for the given payloads, consuming one UUID
token per payload from index `ctr` on. -/
def entries (gen : Nat → String) : Nat → List (List Nat) → List (String × String)
  | _, [] => []
  | ctr, b :: rest => (cidName (gen ctr), b64encode b) :: entries gen (ctr + 1) rest

/-- Fold Python dict insertion over a list of key-value pairs. -/
def insertAll {α : Type} (acc : List (String × α)) (es : List (String × α)) :
    List (String × α) :=
  es.foldl (fun a p => dictInsert a p.1 p.2) acc

/-- Byte payloads stored in an attribute value are genuine bytes (`< 256`),
as Python `bytes`/`BytesIO` guarantee. -/
def attrValWf : AttrVal → Bool
  | .str _ => true
  | .bytes b => b.all (fun x => x < 256)
  | .stream b => b.all (fun x => x < 256)

mutual
/-- Well-formedness of a tree, true of every tree reachable through
`MJMLTag.__init__`: attribute keys are distinct (they live in a Python
`dict`), byte payloads are bytes, and a leaf's content passed the
constructor's validation. -/
def TagWf : MJMLTag → Bool
  | .mk _ attrs children content isLeaf =>
    decide (dictKeys attrs).Nodup && attrs.all (fun p => attrValWf p.2)
      && (!isLeaf || leafContentOk content) && childrenWf children

/-- Well-formedness of the direct tag children. -/
def childrenWf : List ChildArg → Bool
  | [] => true
  | .tag t :: rest => TagWf t && childrenWf rest
  | _ :: rest => childrenWf rest
end

mutual
/-- A binary image source reachable by the rendering recursion of
`_to_mjml`: at the node itself, or — when the node's `content` is unset so
its children are rendered — under a direct tag child. -/
def hasVisibleBinaryImage : MJMLTag → Bool
  | .mk tagName attrs children content _ =>
    (binarySrcAt tagName attrs).isSome
      || (match content with
          | .none => childrenVisible children
          | _ => false)

/-- A render-reachable binary image source under one of the children. -/
def childrenVisible : List ChildArg → Bool
  | [] => false
  | .tag t :: rest => hasVisibleBinaryImage t || childrenVisible rest
  | _ :: rest => childrenVisible rest
end

mutual
/-- A binary image source anywhere in the tree, including inside stored
nested sequences: the plain containment notion, independent of whether
rendering would reach the node. -/
def containsBinaryImage : MJMLTag → Bool
  | .mk tagName attrs children _ _ =>
    (binarySrcAt tagName attrs).isSome || anyChildContains children

/-- Containment in a list of children. -/
def anyChildContains : List ChildArg → Bool
  | [] => false
  | c :: rest => childContains c || anyChildContains rest

/-- Containment under a single child value. -/
def childContains : ChildArg → Bool
  | .tag t => containsBinaryImage t
  | .seq xs => anyChildContains xs
  | .str _ => false
  | .float _ => false
  | .int _ => false
  | .bool _ => false
  | .none => false
end

/-- Single-quote as a one-character string. -/
def sqS : String := ⟨[squote]⟩

/-- Concrete image node with a `bytes` source, for witnesses. -/
def wImgA : MJMLTag :=
  .mk "mj-image" [("src", AttrVal.bytes [1, 2, 3]), ("alt", AttrVal.str "a")] []
    ChildArg.none true

/-- Concrete image node with a `BytesIO` source, for witnesses. -/
def wImgB : MJMLTag :=
  .mk "mj-image" [("src", AttrVal.stream [255])] [] ChildArg.none true

/-- Concrete two-image document, for witnesses. -/
def wDoc : MJMLTag :=
  .mk "mj-body" [] [ChildArg.tag wImgA, ChildArg.tag wImgB] ChildArg.none false

/-! ### Heap model of `_process_tag` for the frame and freshness claim

Python `MJMLTag` objects are heap objects; to state that the inliner never
mutates the input tree and allocates every node of its result afresh, the
tag graph is modelled explicitly: a heap is a list of `HNode` records, a
node reference is an index into it, and `MJMLTag(...)` constructor calls
append to the heap.  `_process_tag` becomes `processTagH`, carried by a
fuel parameter (the Python recursion would not terminate on a cyclic heap);
it mirrors
the pure `processTag` step by step, including the `TagAttrDict` re-coercion
and the leaf-content re-validation performed by the constructor. -/

/-- A child slot of a heap node: a reference to another node, or an
immediate (literal) value. -/
inductive HChild where
  | node (i : Nat)
  | lit (c : ChildArg)

/-- A Python `MJMLTag` object on the heap. -/
structure HNode where
  tagName : String
  attrs : List (String × AttrVal)
  children : List HChild
  content : ChildArg
  isLeaf : Bool

mutual
/-- `_process_tag` over the heap: look the node up, rebuild it through the
constructor (appending a fresh object), process the children, then set the
fresh object's children list (Python appends into `new_tag.children`).
Fuel decreases on every call; `none` means exhausted fuel, a dangling
reference, or a constructor `TypeError`. -/
def processTagH (gen : Nat → String) : Nat → Nat → List HNode → Nat →
    List (String × String) → Option (Nat × List HNode × Nat × List (String × String))
  | 0, _, _, _, _ => Option.none
  | fuel + 1, i, heap, ctr, acc =>
    match heap[i]? with
    | Option.none => Option.none
    | some nd =>
      if nd.isLeaf && !(leafContentOk nd.content) then Option.none
      else
        match binarySrcAt nd.tagName nd.attrs with
        | some v =>
          match convertToBytes v with
          | .error _ => Option.none
          | .ok imageBytes =>
            let b64 := b64encode imageBytes
            let cid := cidName (gen ctr)
            let acc1 := dictInsert acc cid b64
            let newAttrs := attrsOfArgs (some (dictInsert (dictCopyArgs nd.attrs) "src"
              (AttrArg.str ("cid:" ++ cid))))
            let j := heap.length
            let heap1 := heap ++ [⟨nd.tagName, newAttrs, [], nd.content, nd.isLeaf⟩]
            match processChildrenH gen fuel nd.children heap1 (ctr + 1) acc1 with
            | some (cs, heap2, ctr2, acc2) =>
                some (j, heap2.set j ⟨nd.tagName, newAttrs, cs, nd.content, nd.isLeaf⟩,
                  ctr2, acc2)
            | Option.none => Option.none
        | Option.none =>
          let newAttrs := attrsOfArgs (some (dictCopyArgs nd.attrs))
          let j := heap.length
          let heap1 := heap ++ [⟨nd.tagName, newAttrs, [], nd.content, nd.isLeaf⟩]
          match processChildrenH gen fuel nd.children heap1 ctr acc with
          | some (cs, heap2, ctr2, acc2) =>
              some (j, heap2.set j ⟨nd.tagName, newAttrs, cs, nd.content, nd.isLeaf⟩,
                ctr2, acc2)
          | Option.none => Option.none

/-- The child loop of `_process_tag` over the heap: node references are
processed recursively (through the heap), literal children are appended
as-is. -/
def processChildrenH (gen : Nat → String) : Nat → List HChild → List HNode → Nat →
    List (String × String) →
    Option (List HChild × List HNode × Nat × List (String × String))
  | 0, _, _, _, _ => Option.none
  | _ + 1, [], heap, ctr, acc => some ([], heap, ctr, acc)
  | fuel + 1, HChild.node k :: rest, heap, ctr, acc =>
    match processTagH gen fuel k heap ctr acc with
    | some (k2, heap1, ctr1, acc1) =>
      match processChildrenH gen fuel rest heap1 ctr1 acc1 with
      | some (rest2, heap2, ctr2, acc2) => some (HChild.node k2 :: rest2, heap2, ctr2, acc2)
      | Option.none => Option.none
    | Option.none => Option.none
  | fuel + 1, HChild.lit c :: rest, heap, ctr, acc =>
    match processChildrenH gen fuel rest heap ctr acc with
    | some (rest2, heap2, ctr2, acc2) => some (HChild.lit c :: rest2, heap2, ctr2, acc2)
    | Option.none => Option.none
end

theorem b64val_b64char : ∀ n, n < 64 → b64val (b64char n) = n := by decide

theorem b64char_ne_pad : ∀ n, n < 64 → b64char n ≠ '=' := by decide

theorem b64_div16 (a b : Nat) (hb : b < 256) :
    (a % 4 * 16 + b / 16) / 16 = a % 4 := by
  rw [Nat.mul_comm, Nat.mul_add_div (by norm_num : (0:Nat) < 16),
    Nat.div_eq_of_lt (by omega : b / 16 < 16)]
  omega

theorem b64_mod16 (a b : Nat) (hb : b < 256) :
    (a % 4 * 16 + b / 16) % 16 = b / 16 := by
  rw [Nat.mul_comm, Nat.mul_add_mod]
  exact Nat.mod_eq_of_lt (by omega)

theorem b64_div4 (b c : Nat) (hc : c < 256) :
    (b % 16 * 4 + c / 64) / 4 = b % 16 := by
  rw [Nat.mul_comm, Nat.mul_add_div (by norm_num : (0:Nat) < 4),
    Nat.div_eq_of_lt (by omega : c / 64 < 4)]
  omega

theorem b64_mod4 (b c : Nat) (hc : c < 256) :
    (b % 16 * 4 + c / 64) % 4 = c / 64 := by
  rw [Nat.mul_comm, Nat.mul_add_mod]
  exact Nat.mod_eq_of_lt (by omega)

theorem b64_roundtrip_core (l : List Nat) (h : ∀ x ∈ l, x < 256) :
    b64decodeCore (b64encodeCore l) = l := by
  match l with
  | [] => simp [b64encodeCore, b64decodeCore]
  | [a] =>
      have ha : a < 256 := h a (by simp)
      have h1 : a / 4 < 64 := by omega
      have h2 : a % 4 * 16 < 64 := by omega
      simp only [b64encodeCore, b64decodeCore, if_true]
      rw [b64val_b64char _ h1, b64val_b64char _ h2,
        Nat.mul_div_cancel _ (by norm_num : (0:Nat) < 16)]
      simp only [List.cons.injEq, and_true]
      omega
  | [a, b] =>
      have ha : a < 256 := h a (by simp)
      have hb : b < 256 := h b (by simp)
      have h1 : a / 4 < 64 := by omega
      have h2 : a % 4 * 16 + b / 16 < 64 := by omega
      have h3 : b % 16 * 4 < 64 := by omega
      simp only [b64encodeCore, b64decodeCore, if_neg (b64char_ne_pad _ h3), if_true]
      rw [b64val_b64char _ h1, b64val_b64char _ h2, b64val_b64char _ h3,
        b64_div16 a b hb, b64_mod16 a b hb,
        Nat.mul_div_cancel _ (by norm_num : (0:Nat) < 4)]
      simp only [List.cons.injEq, and_true]
      omega
  | a :: b :: c :: rest' =>
      have ha : a < 256 := h a (by simp)
      have hb : b < 256 := h b (by simp)
      have hc : c < 256 := h c (by simp)
      have h1 : a / 4 < 64 := by omega
      have h2 : a % 4 * 16 + b / 16 < 64 := by omega
      have h3 : b % 16 * 4 + c / 64 < 64 := by omega
      have h4 : c % 64 < 64 := by omega
      have ih := b64_roundtrip_core rest' (by
        intro x hx
        exact h x (by simp [hx]))
      simp only [b64encodeCore, b64decodeCore, if_neg (b64char_ne_pad _ h3),
        if_neg (b64char_ne_pad _ h4)]
      rw [b64val_b64char _ h1, b64val_b64char _ h2, b64val_b64char _ h3,
        b64val_b64char _ h4, ih,
        b64_div16 a b hb, b64_mod16 a b hb, b64_div4 b c hc, b64_mod4 b c hc]
      simp only [List.cons.injEq, and_true]
      omega
termination_by l.length

theorem b64_roundtrip (b : List Nat) (h : ∀ x ∈ b, x < 256) :
    b64decode (b64encode b) = b :=
  b64_roundtrip_core b h

/-! ### Dictionary lemmas -/

theorem anyKey_iff {α : Type} (d : List (String × α)) (k : String) :
    d.any (fun p => p.1 == k) = true ↔ k ∈ dictKeys d := by
  simp [dictKeys, List.any_eq_true, List.mem_map, beq_iff_eq]

theorem dictInsert_of_not_mem {α : Type} {d : List (String × α)} {k : String}
    (v : α) (h : k ∉ dictKeys d) : dictInsert d k v = d ++ [(k, v)] := by
  have ha : d.any (fun p => p.1 == k) = false := by
    rw [Bool.eq_false_iff]
    intro hc
    exact h ((anyKey_iff d k).mp hc)
  simp [dictInsert, ha]

theorem dictInsert_cons_ne {α : Type} (p : String × α) (d : List (String × α))
    {k : String} (v : α) (hp : (p.1 == k) = false) :
    dictInsert (p :: d) k v = p :: dictInsert d k v := by
  have hp' : ¬ p.1 = k := by simpa using hp
  by_cases hd : d.any (fun q => q.1 == k) = true
  · simp [dictInsert, hd, hp']
  · simp at hd
    simp [dictInsert, hd, hp']

theorem dictGet_cons_ne {α : Type} (p : String × α) (d : List (String × α))
    {k : String} (hp : (p.1 == k) = false) : dictGet (p :: d) k = dictGet d k := by
  simp [dictGet, List.find?, hp]

theorem dictGet_insert_self {α : Type} (d : List (String × α)) (k : String) (v : α) :
    dictGet (dictInsert d k v) k = some v := by
  induction d with
  | nil => simp [dictInsert, dictGet, List.find?]
  | cons p d ih =>
    by_cases hp : (p.1 == k) = true
    · have hany : (p :: d).any (fun q => q.1 == k) = true := by simp [List.any_cons, hp]
      have hrw : dictInsert (p :: d) k v
          = (k, v) :: d.map (fun q => if q.1 == k then (k, v) else q) := by
        have hp' : p.1 = k := by simpa using hp
        simp [dictInsert, hany, hp']
      rw [hrw]
      simp [dictGet, List.find?]
    · rw [dictInsert_cons_ne p d v (by simpa using hp),
        dictGet_cons_ne p _ (by simpa using hp)]
      exact ih

theorem dictGet_mapReplace_ne {α : Type} (d : List (String × α)) (k : String) (v : α)
    {q : String} (h : q ≠ k) :
    dictGet (d.map (fun p => if p.1 == k then (k, v) else p)) q = dictGet d q := by
  induction d with
  | nil => rfl
  | cons p d ih =>
    by_cases hp : (p.1 == k) = true
    · have hpk : p.1 = k := by simpa using hp
      have h1 : ((k : String) == q) = false := by simp [beq_iff_eq]; exact fun hc => h hc.symm
      have h2 : (p.1 == q) = false := by simp [beq_iff_eq, hpk]; exact fun hc => h hc.symm
      simp only [List.map_cons, hp, if_true]
      rw [dictGet_cons_ne _ _ h1, dictGet_cons_ne _ _ h2]
      exact ih
    · simp only [List.map_cons, hp, if_false]
      by_cases hq : (p.1 == q) = true
      · simp [dictGet, List.find?, hq]
      · rw [dictGet_cons_ne _ _ (by simpa using hq), dictGet_cons_ne _ _ (by simpa using hq)]
        exact ih

theorem dictGet_append_single_ne {α : Type} (d : List (String × α)) (k : String)
    (v : α) {q : String} (h : q ≠ k) : dictGet (d ++ [(k, v)]) q = dictGet d q := by
  induction d with
  | nil =>
    have h1 : ((k : String) == q) = false := by simp [beq_iff_eq]; exact fun hc => h hc.symm
    simp [dictGet, List.find?, h1]
  | cons p d ih =>
    by_cases hq : (p.1 == q) = true
    · simp [dictGet, List.find?, hq]
    · rw [List.cons_append, dictGet_cons_ne _ _ (by simpa using hq),
        dictGet_cons_ne _ _ (by simpa using hq)]
      exact ih

theorem dictGet_insert_ne {α : Type} (d : List (String × α)) (k : String) (v : α)
    {q : String} (h : q ≠ k) : dictGet (dictInsert d k v) q = dictGet d q := by
  by_cases hd : d.any (fun p => p.1 == k) = true
  · rw [show dictInsert d k v = d.map (fun p => if p.1 == k then (k, v) else p) by
      simp [dictInsert, hd]]
    exact dictGet_mapReplace_ne d k v h
  · simp at hd
    rw [show dictInsert d k v = d ++ [(k, v)] by simp [dictInsert, hd]]
    exact dictGet_append_single_ne d k v h

theorem dictKeys_mapReplace {α : Type} (d : List (String × α)) (k : String) (v : α) :
    dictKeys (d.map (fun p => if p.1 == k then (k, v) else p)) = dictKeys d := by
  induction d with
  | nil => rfl
  | cons p d ih =>
    have hfst : (if p.1 == k then (k, v) else p).1 = p.1 := by
      by_cases hp : (p.1 == k) = true
      · have hpk : p.1 = k := by simpa using hp
        simp [hp, hpk]
      · simp [hp]
    simp only [dictKeys, List.map_cons]
    rw [hfst]
    exact congrArg (List.cons p.1) ih

theorem dictKeys_insert_mem {α : Type} (d : List (String × α)) (k : String) (v : α)
    (h : k ∈ dictKeys d) : dictKeys (dictInsert d k v) = dictKeys d := by
  have hd : d.any (fun p => p.1 == k) = true := (anyKey_iff d k).mpr h
  rw [show dictInsert d k v = d.map (fun p => if p.1 == k then (k, v) else p) by
    simp [dictInsert, hd]]
  exact dictKeys_mapReplace d k v

theorem dictKeys_insert_nodup {α : Type} (d : List (String × α)) (k : String) (v : α)
    (h : (dictKeys d).Nodup) : (dictKeys (dictInsert d k v)).Nodup := by
  by_cases hm : k ∈ dictKeys d
  · rw [dictKeys_insert_mem d k v hm]
    exact h
  · rw [dictInsert_of_not_mem v hm]
    simp [dictKeys, List.nodup_append]
    exact ⟨h, by simpa [dictKeys] using hm⟩

theorem insertAll_append {α : Type} (acc : List (String × α))
    (es fs : List (String × α)) :
    insertAll acc (es ++ fs) = insertAll (insertAll acc es) fs := by
  simp [insertAll, List.foldl_append]

theorem insertAll_fresh {α : Type} (es acc : List (String × α))
    (h : (dictKeys (acc ++ es)).Nodup) : insertAll acc es = acc ++ es := by
  induction es generalizing acc with
  | nil => simp [insertAll]
  | cons p es ih =>
    have hk : p.1 ∉ dictKeys acc := by
      intro hc
      rw [show dictKeys (acc ++ p :: es) = dictKeys acc ++ p.1 :: dictKeys es by
        simp [dictKeys]] at h
      rcases List.nodup_append.mp h with ⟨-, -, hdisj⟩
      exact hdisj hc (by simp)
    have step : insertAll acc (p :: es) = insertAll (acc ++ [(p.1, p.2)]) es := by
      simp [insertAll, dictInsert_of_not_mem p.2 hk]
    rw [step, ih (acc ++ [(p.1, p.2)]) (by simpa [List.append_assoc] using h)]
    simp

/-! ### Re-coercion lemmas: rebuilding a tag copies its attributes -/

theorem attrStore_argOfVal (v : AttrVal) : attrStore (argOfVal v) = some v := by
  cases v <;> rfl

theorem listAnyMap {α β : Type} (f : α → β) (l : List α) (p : β → Bool) :
    (l.map f).any p = l.any (p ∘ f) := by
  induction l with
  | nil => rfl
  | cons x xs ih => simp [List.any_cons, ih, Function.comp]

theorem dictKeys_dictCopyArgs (d : List (String × AttrVal)) :
    dictKeys (dictCopyArgs d) = dictKeys d := by
  simp [dictKeys, dictCopyArgs]

theorem tagAttrUpdate_copy (d acc : List (String × AttrVal))
    (h : (dictKeys (acc ++ d)).Nodup) : tagAttrUpdate acc (dictCopyArgs d) = acc ++ d := by
  induction d generalizing acc with
  | nil => simp [tagAttrUpdate, dictCopyArgs]
  | cons p d ih =>
    have hk : p.1 ∉ dictKeys acc := by
      intro hc
      rw [show dictKeys (acc ++ p :: d) = dictKeys acc ++ p.1 :: dictKeys d by
        simp [dictKeys]] at h
      rcases List.nodup_append.mp h with ⟨-, -, hdisj⟩
      exact hdisj hc (by simp)
    have step : tagAttrUpdate acc (dictCopyArgs (p :: d))
        = tagAttrUpdate (acc ++ [(p.1, p.2)]) (dictCopyArgs d) := by
      simp [tagAttrUpdate, dictCopyArgs, attrStore_argOfVal,
        dictInsert_of_not_mem p.2 hk]
    rw [step, ih (acc ++ [(p.1, p.2)]) (by simpa [List.append_assoc] using h)]
    simp

theorem attrsOfArgs_copy (d : List (String × AttrVal)) (h : (dictKeys d).Nodup) :
    attrsOfArgs (some (dictCopyArgs d)) = d := by
  simpa [attrsOfArgs] using tagAttrUpdate_copy d [] (by simpa using h)

theorem mkTag_copy (name : String) (d : List (String × AttrVal)) (content : ChildArg)
    (isLeaf : Bool) (hnd : (dictKeys d).Nodup)
    (hc : isLeaf = true → leafContentOk content = true) :
    mkTag name [] (some (dictCopyArgs d)) content isLeaf
      = .ok (.mk name d [] content isLeaf) := by
  cases isLeaf with
  | true => simp [mkTag, hc rfl, attrsOfArgs_copy d hnd]
  | false => simp [mkTag, attrsOfArgs_copy d hnd, collectChildren]

theorem dictCopyArgs_dictInsert (d : List (String × AttrVal)) (k : String) (v : AttrVal) :
    dictCopyArgs (dictInsert d k v) = dictInsert (dictCopyArgs d) k (argOfVal v) := by
  have hcond : (dictCopyArgs d).any (fun p => p.1 == k) = d.any (fun p => p.1 == k) := by
    unfold dictCopyArgs
    rw [listAnyMap]
    rfl
  by_cases hd : d.any (fun p => p.1 == k) = true
  · unfold dictInsert
    rw [hcond, if_pos hd, if_pos hd]
    unfold dictCopyArgs
    rw [List.map_map, List.map_map]
    apply List.map_congr_left
    intro p hp
    by_cases hk : (p.1 == k) = true
    · have hpk : p.1 = k := by simpa using hk
      simp [Function.comp, hk, hpk]
    · simp [Function.comp, hk]
  · have hd' : d.any (fun p => p.1 == k) = false := Bool.eq_false_iff.mpr hd
    unfold dictInsert
    rw [hcond, hd']
    simp [dictCopyArgs]

/-! ### Entry-list lemmas -/

theorem entries_append (gen : Nat → String) (xs ys : List (List Nat)) (ctr : Nat) :
    entries gen ctr (xs ++ ys) = entries gen ctr xs ++ entries gen (ctr + xs.length) ys := by
  induction xs generalizing ctr with
  | nil => simp [entries]
  | cons x xs ih =>
    simp only [List.cons_append, entries, List.length_cons, List.append_eq]
    rw [ih (ctr + 1), show ctr + 1 + xs.length = ctr + (xs.length + 1) by omega]

theorem entries_length (gen : Nat → String) (srcs : List (List Nat)) (ctr : Nat) :
    (entries gen ctr srcs).length = srcs.length := by
  induction srcs generalizing ctr with
  | nil => rfl
  | cons x xs ih => simp [entries, ih]

theorem entries_getElem (gen : Nat → String) (srcs : List (List Nat)) (ctr i : Nat)
    (x : List Nat) (h : srcs[i]? = some x) :
    (entries gen ctr srcs)[i]? = some (cidName (gen (ctr + i)), b64encode x) := by
  induction srcs generalizing ctr i with
  | nil => simp at h
  | cons y ys ih =>
    cases i with
    | zero =>
      simp at h
      simp [entries, h]
    | succ j =>
      simp only [List.getElem?_cons_succ] at h
      have := ih (ctr + 1) j h
      rw [show ctr + 1 + j = ctr + (j + 1) by omega] at this
      simpa [entries] using this

theorem entries_keys (gen : Nat → String) (srcs : List (List Nat)) (ctr : Nat) :
    dictKeys (entries gen ctr srcs)
      = (List.range srcs.length).map (fun i => cidName (gen (ctr + i))) := by
  induction srcs generalizing ctr with
  | nil => rfl
  | cons x xs ih =>
    simp only [entries, dictKeys, List.map_cons, List.length_cons, List.range_succ_eq_map,
      List.map_map, Nat.add_zero]
    refine congrArg (List.cons _) ?e
    rw [show List.map Prod.fst (entries gen (ctr + 1) xs) = dictKeys (entries gen (ctr + 1) xs)
      from rfl, ih (ctr + 1)]
    apply List.map_congr_left
    intro i _
    simp only [Function.comp]
    rw [show ctr + 1 + i = ctr + (i + 1) by omega]

theorem string_append_cancel_left {a b c : String} (h : a ++ b = a ++ c) : b = c := by
  have hd : a.data ++ b.data = a.data ++ c.data := by
    have := congrArg String.data h
    simpa [String.data_append] using this
  have hbc : b.data = c.data := List.append_cancel_left hd
  cases b
  cases c
  exact congrArg String.mk hbc

theorem string_append_cancel_right {a b c : String} (h : a ++ c = b ++ c) : a = b := by
  have hd : a.data ++ c.data = b.data ++ c.data := by
    have := congrArg String.data h
    simpa [String.data_append] using this
  have hab : a.data = b.data := List.append_cancel_right hd
  cases a
  cases b
  exact congrArg String.mk hab

theorem cidName_inj {a b : String} (h : cidName a = cidName b) : a = b := by
  unfold cidName at h
  have h1 : "plot_" ++ a = "plot_" ++ b := string_append_cancel_right h
  exact string_append_cancel_left h1

/-! ### The master lemma: what the inliner computes on well-formed trees -/

theorem binarySrcAt_isBinary {n : String} {attrs : List (String × AttrVal)}
    {v : AttrVal} (h : binarySrcAt n attrs = some v) : isBinaryVal v = true := by
  unfold binarySrcAt at h
  by_cases hn : n = "mj-image"
  · simp only [if_pos hn] at h
    cases hdg : dictGet attrs "src" with
    | none => simp [hdg] at h
    | some w =>
      simp only [hdg] at h
      by_cases hb : isBinaryVal w = true
      · simp only [if_pos hb, Option.some.injEq] at h
        rw [← h]
        exact hb
      · simp [hb] at h
  · simp [hn] at h

theorem TagWf_mk {n : String} {attrs : List (String × AttrVal)}
    {children : List ChildArg} {content : ChildArg} {isLeaf : Bool}
    (h : TagWf (.mk n attrs children content isLeaf) = true) :
    (dictKeys attrs).Nodup ∧ (attrs.all fun p => attrValWf p.2) = true
      ∧ (isLeaf = true → leafContentOk content = true) ∧ childrenWf children = true := by
  simp only [TagWf, Bool.and_eq_true, decide_eq_true_eq] at h
  obtain ⟨⟨⟨h1, h2⟩, h3⟩, h4⟩ := h
  refine ⟨h1, h2, ?hc, h4⟩
  intro hl
  rw [hl] at h3
  simpa using h3

mutual
theorem processTag_eq (gen : Nat → String) (t : MJMLTag) (ctr : Nat)
    (acc : List (String × String)) (hw : TagWf t = true) :
    processTag gen t ctr acc
      = .ok (rewTag gen ctr t, ctr + (tagSrcs t).length,
          insertAll acc (entries gen ctr (tagSrcs t))) := by
  match t with
  | .mk tagName attrs children content isLeaf =>
    obtain ⟨h1, h2, h3, h4⟩ := TagWf_mk hw
    cases hbin : binarySrcAt tagName attrs with
    | some v =>
        have hbv : isBinaryVal v = true := binarySrcAt_isBinary hbin
        have hconv : convertToBytes v = .ok (bytesOfBinary v) := by
          cases v with
          | str s => simp [isBinaryVal] at hbv
          | bytes b => rfl
          | stream b => rfl
        have hmk : mkTag tagName []
            (some (dictInsert (dictCopyArgs attrs) "src"
              (AttrArg.str ("cid:" ++ cidName (gen ctr))))) content isLeaf
            = .ok (.mk tagName
                (dictInsert attrs "src" (AttrVal.str ("cid:" ++ cidName (gen ctr))))
                [] content isLeaf) := by
          rw [show AttrArg.str ("cid:" ++ cidName (gen ctr))
              = argOfVal (AttrVal.str ("cid:" ++ cidName (gen ctr))) from rfl,
            ← dictCopyArgs_dictInsert]
          exact mkTag_copy _ _ _ _ (dictKeys_insert_nodup _ _ _ h1) h3
        have hch := processChildren_eq gen children (ctr + 1)
          (dictInsert acc (cidName (gen ctr)) (b64encode (bytesOfBinary v))) h4
        simp only [processTag, hbin, hconv, hmk, hch, MJMLTag.setChildren,
          rewTag, tagSrcs, entries, List.length_cons, insertAll, List.foldl_cons]
        rw [show ctr + 1 + (childrenSrcs children).length
            = ctr + ((childrenSrcs children).length + 1) from by omega]
    | none =>
        have hmk : mkTag tagName [] (some (dictCopyArgs attrs)) content isLeaf
            = .ok (.mk tagName attrs [] content isLeaf) := mkTag_copy _ _ _ _ h1 h3
        have hch := processChildren_eq gen children ctr acc h4
        simp only [processTag, hbin, hmk, hch, MJMLTag.setChildren, rewTag, tagSrcs]

theorem processChildren_eq (gen : Nat → String) (cs : List ChildArg) (ctr : Nat)
    (acc : List (String × String)) (hw : childrenWf cs = true) :
    processChildren gen cs ctr acc
      = .ok (rewChildren gen ctr cs, ctr + (childrenSrcs cs).length,
          insertAll acc (entries gen ctr (childrenSrcs cs))) := by
  match cs with
  | [] => simp [processChildren, rewChildren, childrenSrcs, entries, insertAll]
  | .tag c :: rest =>
      have hwc : TagWf c = true ∧ childrenWf rest = true := by
        simpa [childrenWf, Bool.and_eq_true] using hw
      have hc := processTag_eq gen c ctr acc hwc.1
      have hr := processChildren_eq gen rest (ctr + (tagSrcs c).length)
        (insertAll acc (entries gen ctr (tagSrcs c))) hwc.2
      simp only [processChildren, hc, hr, rewChildren, childrenSrcs, entries_append,
        insertAll_append, List.length_append]
      rw [show ctr + (tagSrcs c).length + (childrenSrcs rest).length
          = ctr + ((tagSrcs c).length + (childrenSrcs rest).length) from by omega]
  | .str s :: rest =>
      have hr := processChildren_eq gen rest ctr acc (by simpa [childrenWf] using hw)
      simp only [processChildren, hr, rewChildren, childrenSrcs]
  | .float tx :: rest =>
      have hr := processChildren_eq gen rest ctr acc (by simpa [childrenWf] using hw)
      simp only [processChildren, hr, rewChildren, childrenSrcs]
  | .int n :: rest =>
      have hr := processChildren_eq gen rest ctr acc (by simpa [childrenWf] using hw)
      simp only [processChildren, hr, rewChildren, childrenSrcs]
  | .bool b :: rest =>
      have hr := processChildren_eq gen rest ctr acc (by simpa [childrenWf] using hw)
      simp only [processChildren, hr, rewChildren, childrenSrcs]
  | .none :: rest =>
      have hr := processChildren_eq gen rest ctr acc (by simpa [childrenWf] using hw)
      simp only [processChildren, hr, rewChildren, childrenSrcs]
  | .seq xs :: rest =>
      have hr := processChildren_eq gen rest ctr acc (by simpa [childrenWf] using hw)
      simp only [processChildren, hr, rewChildren, childrenSrcs]
end

/-! ### Rendering succeeds exactly when no binary image source is reachable -/

theorem ok_of_ite {x a b : String} :
    ∃ s, (if x = "" then (Except.ok a : Except String String) else .ok b) = .ok s := by
  by_cases h : x = ""
  · exact ⟨a, by simp [h]⟩
  · exact ⟨b, by simp [h]⟩

mutual
theorem toMjml_spec (t : MJMLTag) (indent : Nat) (eol : String) :
    (hasVisibleBinaryImage t = true → t.toMjml indent eol = .error rawBytesMsg)
    ∧ (hasVisibleBinaryImage t = false → ∃ s, t.toMjml indent eol = .ok s) := by
  match t with
  | .mk n attrs children content isLeaf =>
    by_cases hb : (binarySrcAt n attrs).isSome = true
    · refine ⟨fun _ => by simp [MJMLTag.toMjml, hb], fun hf => ?_⟩
      simp [hasVisibleBinaryImage, hb] at hf
    · have hb' : (binarySrcAt n attrs).isSome = false := Bool.eq_false_iff.mpr hb
      cases content with
      | none =>
        constructor
        · intro hv
          simp only [hasVisibleBinaryImage, hb', Bool.false_or] at hv
          have herr := (childStrs_spec children indent eol).1 hv
          simp [MJMLTag.toMjml, hb', herr]
        · intro hv
          simp only [hasVisibleBinaryImage, hb', Bool.false_or] at hv
          rcases (childStrs_spec children indent eol).2 hv with ⟨l, hl⟩
          simp only [MJMLTag.toMjml, hb', Bool.false_eq_true, if_false, hl]
          exact ok_of_ite
      | tag u =>
        refine ⟨fun hv => absurd hv (by simp [hasVisibleBinaryImage, hb']), fun _ => ?_⟩
        simp only [MJMLTag.toMjml, hb', Bool.false_eq_true, if_false]
        exact ok_of_ite
      | str s2 =>
        refine ⟨fun hv => absurd hv (by simp [hasVisibleBinaryImage, hb']), fun _ => ?_⟩
        simp only [MJMLTag.toMjml, hb', Bool.false_eq_true, if_false]
        exact ok_of_ite
      | float t2 =>
        refine ⟨fun hv => absurd hv (by simp [hasVisibleBinaryImage, hb']), fun _ => ?_⟩
        simp only [MJMLTag.toMjml, hb', Bool.false_eq_true, if_false]
        exact ok_of_ite
      | int n2 =>
        refine ⟨fun hv => absurd hv (by simp [hasVisibleBinaryImage, hb']), fun _ => ?_⟩
        simp only [MJMLTag.toMjml, hb', Bool.false_eq_true, if_false]
        exact ok_of_ite
      | bool b2 =>
        refine ⟨fun hv => absurd hv (by simp [hasVisibleBinaryImage, hb']), fun _ => ?_⟩
        simp only [MJMLTag.toMjml, hb', Bool.false_eq_true, if_false]
        exact ok_of_ite
      | seq l2 =>
        refine ⟨fun hv => absurd hv (by simp [hasVisibleBinaryImage, hb']), fun _ => ?_⟩
        simp only [MJMLTag.toMjml, hb', Bool.false_eq_true, if_false]
        exact ok_of_ite

theorem childStrs_spec (cs : List ChildArg) (indent : Nat) (eol : String) :
    (childrenVisible cs = true → childStrs cs indent eol = .error rawBytesMsg)
    ∧ (childrenVisible cs = false → ∃ l, childStrs cs indent eol = .ok l) := by
  match cs with
  | [] => exact ⟨fun hv => by simp [childrenVisible] at hv, fun _ => ⟨[], rfl⟩⟩
  | .tag c :: rest =>
      constructor
      · intro hv
        by_cases h1 : hasVisibleBinaryImage c = true
        · have := (toMjml_spec c (indent + 2) eol).1 h1
          simp [childStrs, this]
        · have h1' : hasVisibleBinaryImage c = false := Bool.eq_false_iff.mpr h1
          have h2 : childrenVisible rest = true := by
            simpa [childrenVisible, h1'] using hv
          rcases (toMjml_spec c (indent + 2) eol).2 h1' with ⟨s, hs⟩
          have hrest := (childStrs_spec rest indent eol).1 h2
          simp [childStrs, hs, hrest]
      · intro hv
        simp only [childrenVisible, Bool.or_eq_false_iff] at hv
        rcases (toMjml_spec c (indent + 2) eol).2 hv.1 with ⟨s, hs⟩
        rcases (childStrs_spec rest indent eol).2 hv.2 with ⟨l, hl⟩
        exact ⟨s :: l, by simp [childStrs, hs, hl]⟩
  | .str s2 :: rest =>
      refine ⟨fun hv => ?e, fun hv => ?o⟩
      case e =>
        have hrest := (childStrs_spec rest indent eol).1 (by simpa [childrenVisible] using hv)
        simp [childStrs, hrest]
      case o =>
        rcases (childStrs_spec rest indent eol).2 (by simpa [childrenVisible] using hv) with ⟨l, hl⟩
        exact ⟨s2 :: l, by simp [childStrs, hl]⟩
  | .float t2 :: rest =>
      refine ⟨fun hv => ?e2, fun hv => ?o2⟩
      case e2 =>
        have hrest := (childStrs_spec rest indent eol).1 (by simpa [childrenVisible] using hv)
        simp [childStrs, hrest]
      case o2 =>
        rcases (childStrs_spec rest indent eol).2 (by simpa [childrenVisible] using hv) with ⟨l, hl⟩
        exact ⟨t2 :: l, by simp [childStrs, hl]⟩
  | .int n2 :: rest =>
      refine ⟨fun hv => ?e3, fun hv => ?o3⟩
      case e3 =>
        have hrest := (childStrs_spec rest indent eol).1 (by simpa [childrenVisible] using hv)
        simp [childStrs, hrest]
      case o3 =>
        rcases (childStrs_spec rest indent eol).2 (by simpa [childrenVisible] using hv) with ⟨l, hl⟩
        exact ⟨l, by simp [childStrs, hl]⟩
  | .bool b2 :: rest =>
      refine ⟨fun hv => ?e4, fun hv => ?o4⟩
      case e4 =>
        have hrest := (childStrs_spec rest indent eol).1 (by simpa [childrenVisible] using hv)
        simp [childStrs, hrest]
      case o4 =>
        rcases (childStrs_spec rest indent eol).2 (by simpa [childrenVisible] using hv) with ⟨l, hl⟩
        exact ⟨l, by simp [childStrs, hl]⟩
  | .none :: rest =>
      refine ⟨fun hv => ?e5, fun hv => ?o5⟩
      case e5 =>
        have hrest := (childStrs_spec rest indent eol).1 (by simpa [childrenVisible] using hv)
        simp [childStrs, hrest]
      case o5 =>
        rcases (childStrs_spec rest indent eol).2 (by simpa [childrenVisible] using hv) with ⟨l, hl⟩
        exact ⟨l, by simp [childStrs, hl]⟩
  | .seq l2 :: rest =>
      refine ⟨fun hv => ?e6, fun hv => ?o6⟩
      case e6 =>
        have hrest := (childStrs_spec rest indent eol).1 (by simpa [childrenVisible] using hv)
        simp [childStrs, hrest]
      case o6 =>
        rcases (childStrs_spec rest indent eol).2 (by simpa [childrenVisible] using hv) with ⟨l, hl⟩
        exact ⟨l, by simp [childStrs, hl]⟩
end

/-! ### The rewritten tree has no reachable binary image source left -/

theorem binarySrcAt_after_insert (n : String) (attrs : List (String × AttrVal))
    (x : String) :
    binarySrcAt n (dictInsert attrs "src" (AttrVal.str x)) = Option.none := by
  unfold binarySrcAt
  by_cases hn : n = "mj-image"
  · rw [if_pos hn, dictGet_insert_self attrs "src" (AttrVal.str x)]
    rfl
  · rw [if_neg hn]

mutual
theorem rewTag_visible (gen : Nat → String) (ctr : Nat) (t : MJMLTag) :
    hasVisibleBinaryImage (rewTag gen ctr t) = false := by
  match t with
  | .mk n attrs children content isLeaf =>
    cases hbin : binarySrcAt n attrs with
    | some v =>
      have hsrc := binarySrcAt_after_insert n attrs ("cid:" ++ cidName (gen ctr))
      simp only [rewTag, hbin, hasVisibleBinaryImage, hsrc, Option.isSome_none,
        Bool.false_or]
      cases content with
      | none => exact rewChildren_visible gen (ctr + 1) children
      | tag u => rfl
      | str s2 => rfl
      | float t2 => rfl
      | int n2 => rfl
      | bool b2 => rfl
      | seq l2 => rfl
    | none =>
      simp only [rewTag, hbin, hasVisibleBinaryImage, Option.isSome_none, Bool.false_or]
      cases content with
      | none => exact rewChildren_visible gen ctr children
      | tag u => rfl
      | str s2 => rfl
      | float t2 => rfl
      | int n2 => rfl
      | bool b2 => rfl
      | seq l2 => rfl

theorem rewChildren_visible (gen : Nat → String) (ctr : Nat) (cs : List ChildArg) :
    childrenVisible (rewChildren gen ctr cs) = false := by
  match cs with
  | [] => rfl
  | .tag c :: rest =>
      simp [rewChildren, childrenVisible, rewTag_visible gen ctr c,
        rewChildren_visible gen (ctr + (tagSrcs c).length) rest]
  | .str s2 :: rest =>
      simpa [rewChildren, childrenVisible] using rewChildren_visible gen ctr rest
  | .float t2 :: rest =>
      simpa [rewChildren, childrenVisible] using rewChildren_visible gen ctr rest
  | .int n2 :: rest =>
      simpa [rewChildren, childrenVisible] using rewChildren_visible gen ctr rest
  | .bool b2 :: rest =>
      simpa [rewChildren, childrenVisible] using rewChildren_visible gen ctr rest
  | .none :: rest =>
      simpa [rewChildren, childrenVisible] using rewChildren_visible gen ctr rest
  | .seq l2 :: rest =>
      simpa [rewChildren, childrenVisible] using rewChildren_visible gen ctr rest
end

/-! ### A tree without binary sources is rewritten to itself -/

mutual
theorem rewTag_id (gen : Nat → String) (ctr : Nat) (t : MJMLTag)
    (h : tagSrcs t = []) : rewTag gen ctr t = t := by
  match t with
  | .mk n attrs children content isLeaf =>
    cases hbin : binarySrcAt n attrs with
    | some v => simp [tagSrcs, hbin] at h
    | none =>
      have hcs : childrenSrcs children = [] := by simpa [tagSrcs, hbin] using h
      simp [rewTag, hbin, rewChildren_id gen ctr children hcs]

theorem rewChildren_id (gen : Nat → String) (ctr : Nat) (cs : List ChildArg)
    (h : childrenSrcs cs = []) : rewChildren gen ctr cs = cs := by
  match cs with
  | [] => rfl
  | .tag c :: rest =>
      have hsplit : tagSrcs c = [] ∧ childrenSrcs rest = [] := by
        simpa [childrenSrcs, List.append_eq_nil] using h
      simp [rewChildren, hsplit.1, rewTag_id gen ctr c hsplit.1,
        rewChildren_id gen ctr rest hsplit.2]
  | .str s2 :: rest =>
      simp [rewChildren, rewChildren_id gen ctr rest (by simpa [childrenSrcs] using h)]
  | .float t2 :: rest =>
      simp [rewChildren, rewChildren_id gen ctr rest (by simpa [childrenSrcs] using h)]
  | .int n2 :: rest =>
      simp [rewChildren, rewChildren_id gen ctr rest (by simpa [childrenSrcs] using h)]
  | .bool b2 :: rest =>
      simp [rewChildren, rewChildren_id gen ctr rest (by simpa [childrenSrcs] using h)]
  | .none :: rest =>
      simp [rewChildren, rewChildren_id gen ctr rest (by simpa [childrenSrcs] using h)]
  | .seq l2 :: rest =>
      simp [rewChildren, rewChildren_id gen ctr rest (by simpa [childrenSrcs] using h)]
end

/-! ### Claim theorems -/

/-- C4: Constructing a leaf node with two or more positional arguments fails
with an error, as does a leaf node whose resolved content is present but not
a string, int, or float (Python bools being ints); constructing a leaf node
with at most one positional argument holding valid content succeeds, storing
the resolved content. -/
theorem leaf_construction_spec (tagName : String) (args : List ChildArg)
    (attributes : Option (List (String × AttrArg))) (content : ChildArg) :
    (2 ≤ args.length →
      mkTag tagName args attributes content true = .error (leafArityMsg tagName))
    ∧ (args.length ≤ 1 → leafContentOk (resolveContent args content) = true →
      mkTag tagName args attributes content true
        = .ok (.mk tagName (attrsOfArgs attributes) [] (resolveContent args content) true))
    ∧ (args.length ≤ 1 → leafContentOk (resolveContent args content) = false →
      mkTag tagName args attributes content true
        = .error (leafContentMsg tagName (resolveContent args content))) := by
  match args with
  | [] =>
      refine ⟨fun h => by simp at h, fun _ h => ?ok0, fun _ h => ?er0⟩
      case ok0 =>
        simp only [resolveContent] at h
        simp [mkTag, h, resolveContent]
      case er0 =>
        simp only [resolveContent] at h
        simp [mkTag, h, resolveContent]
  | [a] =>
      refine ⟨fun h => by simp at h, fun _ h => ?ok1, fun _ h => ?er1⟩
      case ok1 =>
        simp only [resolveContent] at h
        simp [mkTag, h, resolveContent]
      case er1 =>
        simp only [resolveContent] at h
        simp [mkTag, h, resolveContent]
  | a :: b :: rest =>
      refine ⟨fun _ => by simp [mkTag], fun h => ?len2, fun h => ?len3⟩
      case len2 => exact absurd h (by simp)
      case len3 => exact absurd h (by simp)

/-- C4 witness: the three branches exercised at concrete inputs through
`leaf_construction_spec`. -/
theorem leaf_construction_spec_witness :
    (2 ≤ ([ChildArg.str "a", ChildArg.str "b"] : List ChildArg).length
      ∧ mkTag "mj-text" [ChildArg.str "a", ChildArg.str "b"] Option.none ChildArg.none true
          = .error (leafArityMsg "mj-text"))
    ∧ (([ChildArg.str "a"] : List ChildArg).length ≤ 1
      ∧ leafContentOk (resolveContent [ChildArg.str "a"] ChildArg.none) = true
      ∧ mkTag "mj-text" [ChildArg.str "a"] Option.none ChildArg.none true
          = .ok (.mk "mj-text" [] [] (ChildArg.str "a") true))
    ∧ (([ChildArg.seq []] : List ChildArg).length ≤ 1
      ∧ leafContentOk (resolveContent [ChildArg.seq []] ChildArg.none) = false
      ∧ mkTag "mj-text" [ChildArg.seq []] Option.none ChildArg.none true
          = .error (leafContentMsg "mj-text" (ChildArg.seq []))) :=
  ⟨⟨by decide,
      (leaf_construction_spec "mj-text" [ChildArg.str "a", ChildArg.str "b"]
        Option.none ChildArg.none).1 (by decide)⟩,
    ⟨by decide, by decide,
      (leaf_construction_spec "mj-text" [ChildArg.str "a"]
        Option.none ChildArg.none).2.1 (by decide) (by decide)⟩,
    ⟨by decide, by decide,
      (leaf_construction_spec "mj-text" [ChildArg.seq []]
        Option.none ChildArg.none).2.2 (by decide) (by decide)⟩⟩

/-- C9: An int (including a bool) passed as a positional child argument to a
container node is silently discarded at construction — container
construction always succeeds with children `collectChildren args`, and
`collectChildren` drops int and bool arguments — and any stored int or bool
child contributes nothing to the rendered output. -/
theorem int_children_dropped :
    (∀ (tagName : String) (args : List ChildArg)
        (attributes : Option (List (String × AttrArg))) (content : ChildArg),
      mkTag tagName args attributes content false
        = .ok (.mk tagName (attrsOfArgs attributes) (collectChildren args) content false))
    ∧ (∀ (n : Int) (l : List ChildArg), collectChildren (.int n :: l) = collectChildren l)
    ∧ (∀ (b : Bool) (l : List ChildArg), collectChildren (.bool b :: l) = collectChildren l)
    ∧ (∀ (n : Int) (l1 l2 : List ChildArg) (indent : Nat) (eol : String),
        childStrs (l1 ++ .int n :: l2) indent eol = childStrs (l1 ++ l2) indent eol)
    ∧ (∀ (b : Bool) (l1 l2 : List ChildArg) (indent : Nat) (eol : String),
        childStrs (l1 ++ .bool b :: l2) indent eol = childStrs (l1 ++ l2) indent eol) := by
  refine ⟨fun _ _ _ _ => by simp [mkTag], fun n l => by simp [collectChildren],
    fun b l => by simp [collectChildren], fun n l1 l2 indent eol => ?hi,
    fun b l1 l2 indent eol => ?hb⟩
  case hi =>
    induction l1 with
    | nil => simp [childStrs]
    | cons c l1 ih => cases c <;> simp [childStrs, ih]
  case hb =>
    induction l1 with
    | nil => simp [childStrs]
    | cons c l1 ih => cases c <;> simp [childStrs, ih]

/-- C6 counterexample: children are NOT recursively flattened.  The container
built from `["a", ["b", ["c"]]]` keeps the inner list `["c"]` as a stored
sequence child, and rendering silently drops it: the output contains no
`c`.  (Sequences are flattened one level at construction; deeper nesting is
lost at render.) -/
theorem flatten_counterexample :
    mkTag "mj-body"
        [ChildArg.str "a", ChildArg.seq [ChildArg.str "b", ChildArg.seq [ChildArg.str "c"]]]
        Option.none ChildArg.none false
      = .ok (MJMLTag.mk "mj-body" []
          [ChildArg.str "a", ChildArg.str "b", ChildArg.seq [ChildArg.str "c"]]
          ChildArg.none false)
    ∧ (MJMLTag.mk "mj-body" []
          [ChildArg.str "a", ChildArg.str "b", ChildArg.seq [ChildArg.str "c"]]
          ChildArg.none false).toMjml 0 "|"
        = .ok "<mj-body>|a|b|</mj-body>"
    ∧ ("<mj-body>|a|b|</mj-body>" : String).data.contains 'c' = false :=
  ⟨rfl, rfl, by decide⟩

/-- C6 as amended: when a container node is constructed and then rendered,
`None` children contribute nothing to the output, positional sequences are
flattened exactly one level at construction (in order), sequences nested a
level deeper are stored as-is and silently dropped at render, and strings
are atomic children (never sequences of characters). -/
theorem flatten_amended :
    (∀ (xs l : List ChildArg), collectChildren (.seq xs :: l) = xs ++ collectChildren l)
    ∧ (∀ (l : List ChildArg), collectChildren (.none :: l) = .none :: collectChildren l)
    ∧ (∀ (l1 l2 : List ChildArg) (indent : Nat) (eol : String),
        childStrs (l1 ++ .none :: l2) indent eol = childStrs (l1 ++ l2) indent eol)
    ∧ (∀ (xs l : List ChildArg) (indent : Nat) (eol : String),
        childStrs (.seq xs :: l) indent eol = childStrs l indent eol)
    ∧ (∀ (s : String) (l : List ChildArg), collectChildren (.str s :: l) = .str s :: collectChildren l)
    ∧ (∀ (s : String) (l : List ChildArg) (indent : Nat) (eol : String),
        childStrs (.str s :: l) indent eol = (childStrs l indent eol).map (fun r => s :: r)) := by
  refine ⟨fun xs l => by simp [collectChildren], fun l => by simp [collectChildren],
    fun l1 l2 indent eol => ?hn, fun xs l indent eol => by simp [childStrs],
    fun s l => by simp [collectChildren], fun s l indent eol => ?hs⟩
  case hn =>
    induction l1 with
    | nil => simp [childStrs]
    | cons c l1 ih => cases c <;> simp [childStrs, ih]
  case hs =>
    cases h : childStrs l indent eol <;> simp [childStrs, h, Except.map]

/-- C5 counterexample: a `bytearray` src is NOT rejected.  `TagAttrDict`
coerces it with `str()` at attribute insertion (to the text
`bytearray(b\'...\')`), and the inliner then sees a string source and raises
nothing, returning the tree unchanged with an empty attachment map — the
value is silently coerced, no type error is raised during inlining. -/
theorem bytearray_counterexample :
    mkTag "mj-image" [] (some [("src", AttrArg.bytearray [1, 2])]) ChildArg.none true
      = .ok (MJMLTag.mk "mj-image"
          [("src", AttrVal.str ("bytearray(b" ++ sqS ++ "\\x01\\x02" ++ sqS ++ ")"))]
          [] ChildArg.none true)
    ∧ processMjmlImages (fun _ => "u")
        (MJMLTag.mk "mj-image"
          [("src", AttrVal.str ("bytearray(b" ++ sqS ++ "\\x01\\x02" ++ sqS ++ ")"))]
          [] ChildArg.none true)
      = .ok (MJMLTag.mk "mj-image"
          [("src", AttrVal.str ("bytearray(b" ++ sqS ++ "\\x01\\x02" ++ sqS ++ ")"))]
          [] ChildArg.none true, []) :=
  ⟨rfl, rfl⟩

/-- C5 as amended: an unsupported binary-like source value (e.g. a
`bytearray`) is silently coerced to its Python `str()` text when stored
into the attribute dict, so the inliner never sees it as binary and raises
no error: inlining any well-formed tree succeeds.  The descriptive
`Unsupported image type` `TypeError` does exist in `_convert_to_bytes`, but
that function is only ever called on values already checked to be
`bytes`/`BytesIO`, so it is unreachable from inlining. -/
theorem bytearray_coerced_amended :
    (∀ b : List Nat, attrStore (AttrArg.bytearray b)
        = some (AttrVal.str ("bytearray(" ++ pyBytesRepr b ++ ")")))
    ∧ (∀ v : AttrVal, isBinaryVal v = false →
        convertToBytes v = .error "Unsupported image type: str. Expected bytes or BytesIO.")
    ∧ (∀ (gen : Nat → String) (t : MJMLTag), TagWf t = true →
        ∃ r, processMjmlImages gen t = .ok r) := by
  refine ⟨fun b => rfl, fun v hv => ?hc, fun gen t hw => ?hp⟩
  case hc =>
    cases v with
    | str msg => rfl
    | bytes b => simp [isBinaryVal] at hv
    | stream b => simp [isBinaryVal] at hv
  case hp =>
    have hm := processTag_eq gen t 0 [] hw
    exact ⟨(rewTag gen 0 t, insertAll [] (entries gen 0 (tagSrcs t))),
      by simp [processMjmlImages, hm]⟩

/-- C5 witness: the amended statement applied at a concrete `bytearray`
payload, a concrete non-binary value, and a concrete well-formed tree. -/
theorem bytearray_coerced_amended_witness :
    attrStore (AttrArg.bytearray [1, 2])
      = some (AttrVal.str ("bytearray(" ++ pyBytesRepr [1, 2] ++ ")"))
    ∧ (isBinaryVal (AttrVal.str "x") = false
      ∧ convertToBytes (AttrVal.str "x")
          = .error "Unsupported image type: str. Expected bytes or BytesIO.")
    ∧ (TagWf (MJMLTag.mk "mj-image" [("src", AttrVal.bytes [7])] [] ChildArg.none true) = true
      ∧ ∃ r, processMjmlImages (fun _ => "u")
          (MJMLTag.mk "mj-image" [("src", AttrVal.bytes [7])] [] ChildArg.none true) = .ok r) :=
  ⟨bytearray_coerced_amended.1 [1, 2],
    ⟨by decide, bytearray_coerced_amended.2.1 (AttrVal.str "x") (by decide)⟩,
    ⟨by decide, bytearray_coerced_amended.2.2 (fun _ => "u")
      (MJMLTag.mk "mj-image" [("src", AttrVal.bytes [7])] [] ChildArg.none true) (by decide)⟩⟩

/-- C2 counterexample: a tree that CONTAINS an mj-image node whose src holds
raw bytes can still serialize successfully — here the parent container has
`content` set, so its children (among them the binary image) are never
visited by the rendering recursion.  Both nodes are built through the
constructor. -/
theorem render_shadowed_counterexample :
    mkTag "mj-image" [] (some [("src", AttrArg.bytes [1, 2])]) ChildArg.none true
      = .ok (MJMLTag.mk "mj-image" [("src", AttrVal.bytes [1, 2])] [] ChildArg.none true)
    ∧ mkTag "mj-body"
        [ChildArg.tag (MJMLTag.mk "mj-image" [("src", AttrVal.bytes [1, 2])] [] ChildArg.none true)]
        Option.none (ChildArg.str "hello") false
      = .ok (MJMLTag.mk "mj-body" []
          [ChildArg.tag (MJMLTag.mk "mj-image" [("src", AttrVal.bytes [1, 2])] [] ChildArg.none true)]
          (ChildArg.str "hello") false)
    ∧ containsBinaryImage (MJMLTag.mk "mj-body" []
          [ChildArg.tag (MJMLTag.mk "mj-image" [("src", AttrVal.bytes [1, 2])] [] ChildArg.none true)]
          (ChildArg.str "hello") false) = true
    ∧ (MJMLTag.mk "mj-body" []
          [ChildArg.tag (MJMLTag.mk "mj-image" [("src", AttrVal.bytes [1, 2])] [] ChildArg.none true)]
          (ChildArg.str "hello") false).toMjml 0 "|"
        = .ok "<mj-body>|hello|</mj-body>" :=
  ⟨rfl, rfl, by decide, rfl⟩

/-- C2 as amended: serialization raises the descriptive raw-bytes error
(telling the caller to inline first) exactly when a binary-src mj-image
node is reachable by the rendering recursion — the node itself, or
recursively through direct tag children of nodes whose content is unset; a
tree may contain such a node yet serialize when an ancestor's content
shadows it.  Inlining a well-formed tree succeeds, leaves no reachable
binary image source, and the inlined copy always serializes successfully. -/
theorem render_raw_bytes_amended :
    (∀ (t : MJMLTag) (indent : Nat) (eol : String),
      (hasVisibleBinaryImage t = true → t.toMjml indent eol = .error rawBytesMsg)
      ∧ (hasVisibleBinaryImage t = false → ∃ s, t.toMjml indent eol = .ok s))
    ∧ (∀ (gen : Nat → String) (t : MJMLTag), TagWf t = true →
        ∃ t2 atts, processMjmlImages gen t = .ok (t2, atts)
          ∧ hasVisibleBinaryImage t2 = false
          ∧ ∀ (indent : Nat) (eol : String), ∃ s, t2.toMjml indent eol = .ok s) := by
  refine ⟨fun t indent eol => toMjml_spec t indent eol, fun gen t hw => ?h⟩
  case h =>
    have hm := processTag_eq gen t 0 [] hw
    refine ⟨rewTag gen 0 t, insertAll [] (entries gen 0 (tagSrcs t)),
      by simp [processMjmlImages, hm], rewTag_visible gen 0 t, ?ser⟩
    case ser =>
      intro indent eol
      exact (toMjml_spec (rewTag gen 0 t) indent eol).2 (rewTag_visible gen 0 t)

/-- C2 witness: the amended statement applied at a reachable binary image
(which raises) and at a concrete well-formed tree (whose inlined copy
serializes). -/
theorem render_raw_bytes_amended_witness :
    (hasVisibleBinaryImage
        (MJMLTag.mk "mj-image" [("src", AttrVal.bytes [1])] [] ChildArg.none true) = true
      ∧ (MJMLTag.mk "mj-image" [("src", AttrVal.bytes [1])] [] ChildArg.none true).toMjml 0 "|"
          = .error rawBytesMsg)
    ∧ (TagWf (MJMLTag.mk "mj-image" [("src", AttrVal.bytes [1])] [] ChildArg.none true) = true
      ∧ ∃ t2 atts, processMjmlImages (fun _ => "u")
            (MJMLTag.mk "mj-image" [("src", AttrVal.bytes [1])] [] ChildArg.none true)
          = .ok (t2, atts)
        ∧ hasVisibleBinaryImage t2 = false
        ∧ ∀ (indent : Nat) (eol : String), ∃ s, t2.toMjml indent eol = .ok s) :=
  ⟨⟨by decide,
      (render_raw_bytes_amended.1
        (MJMLTag.mk "mj-image" [("src", AttrVal.bytes [1])] [] ChildArg.none true) 0 "|").1
        (by decide)⟩,
    ⟨by decide,
      render_raw_bytes_amended.2 (fun _ => "u")
        (MJMLTag.mk "mj-image" [("src", AttrVal.bytes [1])] [] ChildArg.none true)
        (by decide)⟩⟩

/-- C10: serialization raises (always with the raw-bytes message) exactly
when a binary src sits on an mj-image node reachable by the rendering
recursion; bytes or byte-stream values under any other attribute name, or
on any other tag name, are serialized without error, a bytes value
appearing in the markup as its Python `str()` text `b\'...\'` inside
`k="..."`.  (For a `BytesIO` under a non-guarded attribute only success is
asserted: its `str()` embeds a memory address, which has no shallow
embedding.) -/
theorem serialize_binary_guard_spec :
    (∀ (t : MJMLTag) (indent : Nat) (eol : String),
      (hasVisibleBinaryImage t = true → t.toMjml indent eol = .error rawBytesMsg)
      ∧ (hasVisibleBinaryImage t = false → ∃ s, t.toMjml indent eol = .ok s))
    ∧ (∀ (name : String) (attrs : List (String × AttrVal)) (isLeaf : Bool)
        (indent : Nat) (eol : String), (binarySrcAt name attrs).isSome = false →
        (MJMLTag.mk name attrs [] ChildArg.none isLeaf).toMjml indent eol
          = .ok (padStr indent ++ "<" ++ name ++ attrString attrs ++ "></" ++ name ++ ">"))
    ∧ (∀ (k : String) (b : List Nat),
        attrPairStr (k, AttrVal.bytes b) = k ++ "=" ++ dqS ++ pyBytesRepr b ++ dqS) := by
  refine ⟨fun t indent eol => toMjml_spec t indent eol,
    fun name attrs isLeaf indent eol hb => ?node, fun k b => rfl⟩
  case node =>
    simp [MJMLTag.toMjml, hb, childStrs, String.intercalate]

/-- C10 witness: the guard applied at a binary-src image node (raises) and
at a node carrying bytes under another attribute name (serializes,
embedding the `str()` text). -/
theorem serialize_binary_guard_spec_witness :
    (hasVisibleBinaryImage
        (MJMLTag.mk "mj-image" [("src", AttrVal.bytes [1])] [] ChildArg.none true) = true
      ∧ (MJMLTag.mk "mj-image" [("src", AttrVal.bytes [1])] [] ChildArg.none true).toMjml 0 "|"
          = .error rawBytesMsg)
    ∧ ((binarySrcAt "mj-text" [("data", AttrVal.bytes [65])]).isSome = false
      ∧ (MJMLTag.mk "mj-text" [("data", AttrVal.bytes [65])] [] ChildArg.none true).toMjml 0 "|"
          = .ok (padStr 0 ++ "<" ++ "mj-text" ++ attrString [("data", AttrVal.bytes [65])]
              ++ "></" ++ "mj-text" ++ ">"))
    ∧ attrPairStr ("data", AttrVal.bytes [65])
        = "data" ++ "=" ++ dqS ++ pyBytesRepr [65] ++ dqS :=
  ⟨⟨by decide,
      (serialize_binary_guard_spec.1
        (MJMLTag.mk "mj-image" [("src", AttrVal.bytes [1])] [] ChildArg.none true) 0 "|").1
        (by decide)⟩,
    ⟨by decide,
      serialize_binary_guard_spec.2.1 "mj-text" [("data", AttrVal.bytes [65])] true 0 "|"
        (by decide)⟩,
    serialize_binary_guard_spec.2.2 "data" [65]⟩

/-- C7: inlining a well-formed tree with zero binary image sources returns
the input tree itself — same tag names, attributes, content and children,
hence serializing to the same string — together with an empty attachment
map. -/
theorem inline_no_binary_noop (gen : Nat → String) (t : MJMLTag)
    (hw : TagWf t = true) (h0 : tagSrcs t = []) :
    processMjmlImages gen t = .ok (t, [])
    ∧ ∀ t2 atts, processMjmlImages gen t = .ok (t2, atts) →
        ∀ (indent : Nat) (eol : String), t2.toMjml indent eol = t.toMjml indent eol := by
  have hm := processTag_eq gen t 0 [] hw
  rw [h0] at hm
  simp only [entries, insertAll, List.foldl_nil, List.length_nil, Nat.add_zero] at hm
  rw [rewTag_id gen 0 t h0] at hm
  have hmain : processMjmlImages gen t = .ok (t, []) := by
    simp [processMjmlImages, hm]
  refine ⟨hmain, fun t2 atts heq indent eol => ?same⟩
  case same =>
    rw [hmain] at heq
    simp only [Except.ok.injEq, Prod.mk.injEq] at heq
    rw [heq.1]

/-- C7 witness: a concrete binary-free tree is returned unchanged with an
empty map. -/
theorem inline_no_binary_noop_witness :
    TagWf (MJMLTag.mk "mj-body" [("color", AttrVal.str "red")]
        [ChildArg.str "x"] ChildArg.none false) = true
    ∧ tagSrcs (MJMLTag.mk "mj-body" [("color", AttrVal.str "red")]
        [ChildArg.str "x"] ChildArg.none false) = []
    ∧ (processMjmlImages (fun _ => "u")
          (MJMLTag.mk "mj-body" [("color", AttrVal.str "red")]
            [ChildArg.str "x"] ChildArg.none false)
        = .ok (MJMLTag.mk "mj-body" [("color", AttrVal.str "red")]
            [ChildArg.str "x"] ChildArg.none false, [])
      ∧ ∀ t2 atts, processMjmlImages (fun _ => "u")
            (MJMLTag.mk "mj-body" [("color", AttrVal.str "red")]
              [ChildArg.str "x"] ChildArg.none false) = .ok (t2, atts) →
          ∀ (indent : Nat) (eol : String),
            t2.toMjml indent eol
              = (MJMLTag.mk "mj-body" [("color", AttrVal.str "red")]
                  [ChildArg.str "x"] ChildArg.none false).toMjml indent eol) :=
  ⟨by decide, by decide,
    inline_no_binary_noop (fun _ => "u")
      (MJMLTag.mk "mj-body" [("color", AttrVal.str "red")]
        [ChildArg.str "x"] ChildArg.none false) (by decide) (by decide)⟩

/-! ### Byte bounds and fresh-key lemmas for the attachment map -/

theorem binarySrcAt_dictGet {n : String} {attrs : List (String × AttrVal)}
    {v : AttrVal} (h : binarySrcAt n attrs = some v) : dictGet attrs "src" = some v := by
  unfold binarySrcAt at h
  by_cases hn : n = "mj-image"
  · simp only [if_pos hn] at h
    cases hdg : dictGet attrs "src" with
    | none => simp [hdg] at h
    | some w =>
      simp only [hdg] at h
      by_cases hb : isBinaryVal w = true
      · simp only [if_pos hb, Option.some.injEq] at h
        rw [h]
      · simp [hb] at h
  · simp [hn] at h

theorem dictGet_key_mem {α : Type} {d : List (String × α)} {k : String} {v : α}
    (h : dictGet d k = some v) : k ∈ dictKeys d := by
  induction d with
  | nil => simp [dictGet, List.find?] at h
  | cons p d ih =>
    by_cases hp : (p.1 == k) = true
    · have : p.1 = k := by simpa using hp
      simp [dictKeys, this]
    · rw [dictGet_cons_ne p d (by simpa using hp)] at h
      simp only [dictKeys, List.map_cons, List.mem_cons]
      exact Or.inr (ih h)

theorem bytesOfBinary_bound {v : AttrVal} (hwf : attrValWf v = true) :
    ∀ y ∈ bytesOfBinary v, y < 256 := by
  cases v with
  | str s => simp [bytesOfBinary]
  | bytes b =>
    intro y hy
    simp only [attrValWf, List.all_eq_true] at hwf
    simpa using hwf y (by simpa using hy)
  | stream b =>
    intro y hy
    simp only [attrValWf, List.all_eq_true] at hwf
    simpa using hwf y (by simpa using hy)

mutual
theorem tagSrcs_bytes (t : MJMLTag) (hw : TagWf t = true) :
    ∀ x ∈ tagSrcs t, ∀ y ∈ x, y < 256 := by
  match t with
  | .mk n attrs children content isLeaf =>
    obtain ⟨h1, h2, h3, h4⟩ := TagWf_mk hw
    cases hbin : binarySrcAt n attrs with
    | some v =>
      intro x hx
      simp only [tagSrcs, hbin, List.mem_cons] at hx
      rcases hx with hx1 | hx2
      · subst hx1
        have hget := binarySrcAt_dictGet hbin
        unfold dictGet at hget
        cases hf : attrs.find? (fun p => p.1 == "src") with
        | none => simp [hf] at hget
        | some p =>
          simp only [hf, Option.map_some', Option.some.injEq] at hget
          have hmem : p ∈ attrs := List.mem_of_find?_eq_some hf
          have hwf : attrValWf p.2 = true := by
            have hall := List.all_eq_true.mp h2 p hmem
            simpa using hall
          rw [← hget]
          exact bytesOfBinary_bound hwf
      · exact childrenSrcs_bytes children h4 x hx2
    | none =>
      intro x hx
      simp only [tagSrcs, hbin] at hx
      exact childrenSrcs_bytes children h4 x hx

theorem childrenSrcs_bytes (cs : List ChildArg) (hw : childrenWf cs = true) :
    ∀ x ∈ childrenSrcs cs, ∀ y ∈ x, y < 256 := by
  match cs with
  | [] => simp [childrenSrcs]
  | .tag c :: rest =>
    have hwc : TagWf c = true ∧ childrenWf rest = true := by
      simpa [childrenWf, Bool.and_eq_true] using hw
    intro x hx
    simp only [childrenSrcs, List.mem_append] at hx
    rcases hx with hx1 | hx2
    · exact tagSrcs_bytes c hwc.1 x hx1
    · exact childrenSrcs_bytes rest hwc.2 x hx2
  | .str s2 :: rest =>
    intro x hx
    exact childrenSrcs_bytes rest (by simpa [childrenWf] using hw) x (by simpa [childrenSrcs] using hx)
  | .float t2 :: rest =>
    intro x hx
    exact childrenSrcs_bytes rest (by simpa [childrenWf] using hw) x (by simpa [childrenSrcs] using hx)
  | .int n2 :: rest =>
    intro x hx
    exact childrenSrcs_bytes rest (by simpa [childrenWf] using hw) x (by simpa [childrenSrcs] using hx)
  | .bool b2 :: rest =>
    intro x hx
    exact childrenSrcs_bytes rest (by simpa [childrenWf] using hw) x (by simpa [childrenSrcs] using hx)
  | .none :: rest =>
    intro x hx
    exact childrenSrcs_bytes rest (by simpa [childrenWf] using hw) x (by simpa [childrenSrcs] using hx)
  | .seq l2 :: rest =>
    intro x hx
    exact childrenSrcs_bytes rest (by simpa [childrenWf] using hw) x (by simpa [childrenSrcs] using hx)
end

theorem entries_keys_nodup (gen : Nat → String) (t : MJMLTag)
    (hgen : ∀ i, i < (tagSrcs t).length → ∀ j, j < (tagSrcs t).length →
      gen i = gen j → i = j) :
    (dictKeys (entries gen 0 (tagSrcs t))).Nodup := by
  rw [entries_keys]
  simp only [Nat.zero_add]
  apply List.Nodup.map_on ?inj (List.nodup_range _)
  case inj =>
    intro i hi j hj heq
    simp only [List.mem_range] at hi hj
    exact hgen i hi j hj (cidName_inj heq)

theorem inline_entries (gen : Nat → String) (t : MJMLTag) (hw : TagWf t = true)
    (hgen : ∀ i, i < (tagSrcs t).length → ∀ j, j < (tagSrcs t).length →
      gen i = gen j → i = j) :
    processMjmlImages gen t = .ok (rewTag gen 0 t, entries gen 0 (tagSrcs t)) := by
  have hm := processTag_eq gen t 0 [] hw
  have hins : insertAll [] (entries gen 0 (tagSrcs t)) = entries gen 0 (tagSrcs t) := by
    have := insertAll_fresh (entries gen 0 (tagSrcs t)) []
      (by simpa using entries_keys_nodup gen t hgen)
    simpa using this
  rw [hins] at hm
  simp [processMjmlImages, hm]

/-- C1: on a well-formed tree whose N binary image sources are listed
depth-first by `tagSrcs`, and under the freshness of the UUID supply on the
N consumed tokens, inlining returns the rewritten tree together with an
attachment map of exactly N entries; the i-th entry maps the i-th generated
CID filename to the base64 encoding of the i-th node's original bytes
(base64-decoding it reproduces those bytes exactly), and each rewritten
binary image node keeps its tag name, leaf flag, content, attribute keys
and all non-`src` attribute values, with `src` now `"cid:" ++ key`. -/
theorem inline_binary_images_spec (gen : Nat → String) (t : MJMLTag)
    (hw : TagWf t = true)
    (hgen : ∀ i, i < (tagSrcs t).length → ∀ j, j < (tagSrcs t).length →
      gen i = gen j → i = j) :
    processMjmlImages gen t = .ok (rewTag gen 0 t, entries gen 0 (tagSrcs t))
    ∧ (entries gen 0 (tagSrcs t)).length = (tagSrcs t).length
    ∧ (∀ (i : Nat) (x : List Nat), (tagSrcs t)[i]? = some x →
        (entries gen 0 (tagSrcs t))[i]? = some (cidName (gen i), b64encode x)
        ∧ b64decode (b64encode x) = x)
    ∧ (∀ (c : Nat) (u : MJMLTag) (v : AttrVal), binarySrcOf u = some v →
        (rewTag gen c u).tagName = u.tagName
        ∧ (rewTag gen c u).isLeaf = u.isLeaf
        ∧ (rewTag gen c u).content = u.content
        ∧ dictGet (rewTag gen c u).attrs "src"
            = some (AttrVal.str ("cid:" ++ cidName (gen c)))
        ∧ (∀ k, k ≠ "src" → dictGet (rewTag gen c u).attrs k = dictGet u.attrs k)
        ∧ dictKeys (rewTag gen c u).attrs = dictKeys u.attrs) := by
  refine ⟨inline_entries gen t hw hgen, entries_length gen (tagSrcs t) 0,
    fun i x hx => ?get, fun c u v hbv => ?rew⟩
  case get =>
    have hmem : x ∈ tagSrcs t := by
      have hlt := List.getElem?_eq_some.mp hx
      rcases hlt with ⟨hl, hget⟩
      rw [← hget]
      exact List.getElem_mem hl
    have hb := tagSrcs_bytes t hw x hmem
    have := entries_getElem gen (tagSrcs t) 0 i x hx
    simp only [Nat.zero_add] at this
    exact ⟨this, b64_roundtrip x hb⟩
  case rew =>
    match u with
    | .mk n attrs ch ct lf =>
      have hbin : binarySrcAt n attrs = some v := by
        simpa [binarySrcOf, MJMLTag.tagName, MJMLTag.attrs] using hbv
      have hsrcmem : "src" ∈ dictKeys attrs := dictGet_key_mem (binarySrcAt_dictGet hbin)
      refine ⟨by simp [rewTag, hbin, MJMLTag.tagName],
        by simp [rewTag, hbin, MJMLTag.isLeaf],
        by simp [rewTag, hbin, MJMLTag.content], ?src, ?other, ?keys⟩
      case src =>
        simp [rewTag, hbin, MJMLTag.attrs, dictGet_insert_self]
      case other =>
        intro k hk
        simp only [rewTag, hbin, MJMLTag.attrs]
        exact dictGet_insert_ne attrs "src" _ hk
      case keys =>
        simp only [rewTag, hbin, MJMLTag.attrs]
        exact dictKeys_insert_mem attrs "src" _ hsrcmem

/-- C1 witness: the specification applied to the concrete two-image
document `wDoc` with the injective supply `toString`. -/
theorem inline_binary_images_spec_witness :
    TagWf wDoc = true
    ∧ (∀ i, i < (tagSrcs wDoc).length → ∀ j, j < (tagSrcs wDoc).length →
        (fun n => toString n) i = (fun n => toString n) j → i = j)
    ∧ (processMjmlImages (fun n => toString n) wDoc
        = .ok (rewTag (fun n => toString n) 0 wDoc,
            entries (fun n => toString n) 0 (tagSrcs wDoc))
      ∧ (entries (fun n => toString n) 0 (tagSrcs wDoc)).length = (tagSrcs wDoc).length
      ∧ (∀ (i : Nat) (x : List Nat), (tagSrcs wDoc)[i]? = some x →
          (entries (fun n => toString n) 0 (tagSrcs wDoc))[i]?
              = some (cidName ((fun n => toString n) i), b64encode x)
          ∧ b64decode (b64encode x) = x)
      ∧ (∀ (c : Nat) (u : MJMLTag) (v : AttrVal), binarySrcOf u = some v →
          (rewTag (fun n => toString n) c u).tagName = u.tagName
          ∧ (rewTag (fun n => toString n) c u).isLeaf = u.isLeaf
          ∧ (rewTag (fun n => toString n) c u).content = u.content
          ∧ dictGet (rewTag (fun n => toString n) c u).attrs "src"
              = some (AttrVal.str ("cid:" ++ cidName ((fun n => toString n) c)))
          ∧ (∀ k, k ≠ "src" →
              dictGet (rewTag (fun n => toString n) c u).attrs k = dictGet u.attrs k)
          ∧ dictKeys (rewTag (fun n => toString n) c u).attrs = dictKeys u.attrs)) :=
  ⟨by decide, by decide,
    inline_binary_images_spec (fun n => toString n) wDoc (by decide) (by decide)⟩

/-- C8: on the same well-formed input tree, two inlining runs whose UUID
supplies are each injective on the consumed range and never collide across
runs produce attachment maps with pairwise-distinct keys and disjoint key
sets — uniqueness is the guarantee, key order carries no meaning. -/
theorem inline_fresh_filenames (gen1 gen2 : Nat → String) (t : MJMLTag)
    (hw : TagWf t = true)
    (h1 : ∀ i, i < (tagSrcs t).length → ∀ j, j < (tagSrcs t).length →
      gen1 i = gen1 j → i = j)
    (h2 : ∀ i, i < (tagSrcs t).length → ∀ j, j < (tagSrcs t).length →
      gen2 i = gen2 j → i = j)
    (hcross : ∀ i, i < (tagSrcs t).length → ∀ j, j < (tagSrcs t).length →
      gen1 i ≠ gen2 j) :
    ∃ t1 atts1 t2 atts2,
      processMjmlImages gen1 t = .ok (t1, atts1)
      ∧ processMjmlImages gen2 t = .ok (t2, atts2)
      ∧ (dictKeys atts1).Nodup
      ∧ (dictKeys atts2).Nodup
      ∧ ∀ k, k ∈ dictKeys atts1 → k ∉ dictKeys atts2 := by
  refine ⟨rewTag gen1 0 t, entries gen1 0 (tagSrcs t),
    rewTag gen2 0 t, entries gen2 0 (tagSrcs t),
    inline_entries gen1 t hw h1, inline_entries gen2 t hw h2,
    entries_keys_nodup gen1 t h1, entries_keys_nodup gen2 t h2, ?disj⟩
  case disj =>
    intro k hk1 hk2
    rw [entries_keys] at hk1 hk2
    simp only [List.mem_map, List.mem_range, Nat.zero_add] at hk1 hk2
    rcases hk1 with ⟨i, hi, hik⟩
    rcases hk2 with ⟨j, hj, hjk⟩
    exact hcross i hi j hj (cidName_inj (hik.trans hjk.symm))

/-- C8 witness: the disjointness statement applied to `wDoc` with two
concrete non-colliding supplies. -/
theorem inline_fresh_filenames_witness :
    TagWf wDoc = true
    ∧ (∀ i, i < (tagSrcs wDoc).length → ∀ j, j < (tagSrcs wDoc).length →
        (fun n => "a" ++ toString n) i = (fun n => "a" ++ toString n) j → i = j)
    ∧ (∀ i, i < (tagSrcs wDoc).length → ∀ j, j < (tagSrcs wDoc).length →
        (fun n => "b" ++ toString n) i = (fun n => "b" ++ toString n) j → i = j)
    ∧ (∀ i, i < (tagSrcs wDoc).length → ∀ j, j < (tagSrcs wDoc).length →
        (fun n => "a" ++ toString n) i ≠ (fun n => "b" ++ toString n) j)
    ∧ ∃ t1 atts1 t2 atts2,
        processMjmlImages (fun n => "a" ++ toString n) wDoc = .ok (t1, atts1)
        ∧ processMjmlImages (fun n => "b" ++ toString n) wDoc = .ok (t2, atts2)
        ∧ (dictKeys atts1).Nodup
        ∧ (dictKeys atts2).Nodup
        ∧ ∀ k, k ∈ dictKeys atts1 → k ∉ dictKeys atts2 :=
  ⟨by decide, by decide, by decide, by decide,
    inline_fresh_filenames (fun n => "a" ++ toString n) (fun n => "b" ++ toString n)
      wDoc (by decide) (by decide) (by decide) (by decide)⟩

theorem convertToBytes_ok {v : AttrVal} (hb : isBinaryVal v = true) :
    convertToBytes v = .ok (bytesOfBinary v) := by
  cases v with
  | str s => simp [isBinaryVal] at hb
  | bytes b => rfl
  | stream b => rfl

theorem frame_assemble (heap heapB : List HNode) (cs : List HChild) (nd0 ndF : HNode)
    (hcsF : ndF.children = cs)
    (h1 : (heap ++ [nd0]).length ≤ heapB.length)
    (h2 : ∀ k, k < (heap ++ [nd0]).length → heapB[k]? = (heap ++ [nd0])[k]?)
    (h3 : ∀ k nd2, (heap ++ [nd0]).length ≤ k → heapB[k]? = some nd2 →
        ∀ m, HChild.node m ∈ nd2.children → (heap ++ [nd0]).length ≤ m ∧ m < heapB.length)
    (h4 : ∀ m, HChild.node m ∈ cs → (heap ++ [nd0]).length ≤ m ∧ m < heapB.length) :
    heap.length ≤ (heapB.set heap.length ndF).length
    ∧ (∀ k, k < heap.length → (heapB.set heap.length ndF)[k]? = heap[k]?)
    ∧ heap.length ≤ heap.length
    ∧ heap.length < (heapB.set heap.length ndF).length
    ∧ (∀ k nd2, heap.length ≤ k → (heapB.set heap.length ndF)[k]? = some nd2 →
        ∀ m, HChild.node m ∈ nd2.children →
          heap.length ≤ m ∧ m < (heapB.set heap.length ndF).length) := by
  have hlen1 : (heap ++ [nd0]).length = heap.length + 1 := by simp
  have hBlen : heap.length + 1 ≤ heapB.length := by rw [← hlen1]; exact h1
  have hset : (heapB.set heap.length ndF).length = heapB.length := List.length_set _ _ _
  refine ⟨by omega, ?pres, le_refl _, by omega, ?inv⟩
  case pres =>
    intro k hk
    rw [List.getElem?_set_ne (by omega : heap.length ≠ k), h2 k (by omega),
      List.getElem?_append, if_pos hk]
  case inv =>
    intro k nd2 hk hget m hm
    by_cases hkj : k = heap.length
    · subst hkj
      rw [List.getElem?_set_self (by omega)] at hget
      have hnd : ndF = nd2 := by
        simpa using hget
      rw [← hnd, hcsF] at hm
      have := h4 m hm
      exact ⟨by omega, by omega⟩
    · rw [List.getElem?_set_ne (fun he => hkj he.symm)] at hget
      have := h3 k nd2 (by omega) hget m hm
      exact ⟨by omega, by omega⟩

mutual
theorem processTagH_frame (gen : Nat → String) (fuel i ctr : Nat) (heap : List HNode)
    (acc : List (String × String)) (j ctr2 : Nat) (heap2 : List HNode)
    (acc2 : List (String × String))
    (h : processTagH gen fuel i heap ctr acc = some (j, heap2, ctr2, acc2)) :
    heap.length ≤ heap2.length
    ∧ (∀ k, k < heap.length → heap2[k]? = heap[k]?)
    ∧ heap.length ≤ j ∧ j < heap2.length
    ∧ (∀ k nd2, heap.length ≤ k → heap2[k]? = some nd2 →
        ∀ m, HChild.node m ∈ nd2.children → heap.length ≤ m ∧ m < heap2.length) := by
  match fuel with
  | 0 => simp [processTagH] at h
  | fuel + 1 =>
    simp only [processTagH] at h
    cases hnd : heap[i]? with
    | none => simp [hnd] at h
    | some nd =>
      simp only [hnd] at h
      by_cases hlf : (nd.isLeaf && !(leafContentOk nd.content)) = true
      · rw [if_pos hlf] at h
        exact absurd h (by simp)
      · rw [if_neg hlf] at h
        cases hbin : binarySrcAt nd.tagName nd.attrs with
        | some v =>
          simp only [hbin, convertToBytes_ok (binarySrcAt_isBinary hbin)] at h
          cases hch : processChildrenH gen fuel nd.children
              (heap ++ [⟨nd.tagName,
                attrsOfArgs (some (dictInsert (dictCopyArgs nd.attrs) "src"
                  (AttrArg.str ("cid:" ++ cidName (gen ctr))))), [], nd.content, nd.isLeaf⟩])
              (ctr + 1)
              (dictInsert acc (cidName (gen ctr)) (b64encode (bytesOfBinary v))) with
          | none => simp [hch] at h
          | some res =>
            obtain ⟨cs, heapB, ctrB, accB⟩ := res
            simp only [hch, Option.some.injEq, Prod.mk.injEq] at h
            obtain ⟨hj, hheap, hctr, hacc⟩ := h
            subst hj
            rw [← hheap]
            have hF := processChildrenH_frame gen fuel nd.children _ (ctr + 1) _
              cs heapB ctrB accB hch
            exact frame_assemble heap heapB cs _ _ rfl hF.1 hF.2.1 hF.2.2.1 hF.2.2.2
        | none =>
          simp only [hbin] at h
          cases hch : processChildrenH gen fuel nd.children
              (heap ++ [⟨nd.tagName, attrsOfArgs (some (dictCopyArgs nd.attrs)), [],
                nd.content, nd.isLeaf⟩]) ctr acc with
          | none => simp [hch] at h
          | some res =>
            obtain ⟨cs, heapB, ctrB, accB⟩ := res
            simp only [hch, Option.some.injEq, Prod.mk.injEq] at h
            obtain ⟨hj, hheap, hctr, hacc⟩ := h
            subst hj
            rw [← hheap]
            have hF := processChildrenH_frame gen fuel nd.children _ ctr _
              cs heapB ctrB accB hch
            exact frame_assemble heap heapB cs _ _ rfl hF.1 hF.2.1 hF.2.2.1 hF.2.2.2

theorem processChildrenH_frame (gen : Nat → String) (fuel : Nat) (cs : List HChild)
    (heap : List HNode) (ctr : Nat) (acc : List (String × String))
    (cs2 : List HChild) (heap2 : List HNode) (ctr2 : Nat)
    (acc2 : List (String × String))
    (h : processChildrenH gen fuel cs heap ctr acc = some (cs2, heap2, ctr2, acc2)) :
    heap.length ≤ heap2.length
    ∧ (∀ k, k < heap.length → heap2[k]? = heap[k]?)
    ∧ (∀ k nd2, heap.length ≤ k → heap2[k]? = some nd2 →
        ∀ m, HChild.node m ∈ nd2.children → heap.length ≤ m ∧ m < heap2.length)
    ∧ (∀ m, HChild.node m ∈ cs2 → heap.length ≤ m ∧ m < heap2.length) := by
  match fuel, cs with
  | 0, _ => simp [processChildrenH] at h
  | fuel + 1, [] =>
    simp only [processChildrenH, Option.some.injEq, Prod.mk.injEq] at h
    obtain ⟨hcs, hheap, hctr, hacc⟩ := h
    subst hcs
    subst hheap
    refine ⟨le_refl _, fun k _ => rfl, fun k nd2 hk hget m _ => ?dead, by simp⟩
    case dead =>
      rw [List.getElem?_eq_none hk] at hget
      cases hget
  | fuel + 1, HChild.node k0 :: rest =>
    simp only [processChildrenH] at h
    cases htag : processTagH gen fuel k0 heap ctr acc with
    | none => simp [htag] at h
    | some res =>
      obtain ⟨k2, heapA, ctrA, accA⟩ := res
      simp only [htag] at h
      cases hrest : processChildrenH gen fuel rest heapA ctrA accA with
      | none => simp [hrest] at h
      | some res2 =>
        obtain ⟨rest2, heapC, ctrC, accC⟩ := res2
        simp only [hrest, Option.some.injEq, Prod.mk.injEq] at h
        obtain ⟨hcs, hheap, hctr, hacc⟩ := h
        subst hcs
        subst hheap
        have hT := processTagH_frame gen fuel k0 ctr heap acc k2 ctrA heapA accA htag
        have hR := processChildrenH_frame gen fuel rest heapA ctrA accA
          rest2 heapC ctrC accC hrest
        refine ⟨le_trans hT.1 hR.1, ?pres, ?inv, ?refs⟩
        case pres =>
          intro k hk
          rw [hR.2.1 k (lt_of_lt_of_le hk hT.1), hT.2.1 k hk]
        case inv =>
          intro k nd2 hk hget m hm
          by_cases hcase : heapA.length ≤ k
          · have := hR.2.2.1 k nd2 hcase hget m hm
            exact ⟨le_trans hT.1 this.1, this.2⟩
          · have hklt : k < heapA.length := by omega
            rw [hR.2.1 k hklt] at hget
            have := hT.2.2.2.2 k nd2 hk hget m hm
            exact ⟨this.1, lt_of_lt_of_le this.2 hR.1⟩
        case refs =>
          intro m hm
          rcases List.mem_cons.mp hm with hm1 | hm2
          · have hmk : m = k2 := by
              injection hm1
            subst hmk
            exact ⟨hT.2.2.1, lt_of_lt_of_le hT.2.2.2.1 hR.1⟩
          · have := hR.2.2.2 m hm2
            exact ⟨le_trans hT.1 this.1, this.2⟩
  | fuel + 1, HChild.lit c :: rest =>
    simp only [processChildrenH] at h
    cases hrest : processChildrenH gen fuel rest heap ctr acc with
    | none => simp [hrest] at h
    | some res2 =>
      obtain ⟨rest2, heapC, ctrC, accC⟩ := res2
      simp only [hrest, Option.some.injEq, Prod.mk.injEq] at h
      obtain ⟨hcs, hheap, hctr, hacc⟩ := h
      subst hcs
      subst hheap
      have hR := processChildrenH_frame gen fuel rest heap ctr acc
        rest2 heapC ctrC accC hrest
      refine ⟨hR.1, hR.2.1, hR.2.2.1, ?refs⟩
      case refs =>
        intro m hm
        rcases List.mem_cons.mp hm with hm1 | hm2
        · cases hm1
        · exact hR.2.2.2 m hm2
end

/-- C3: inlining leaves the input tree completely unchanged and returns a
tree sharing no node with it.  In the heap model, a successful
`_process_tag` run never modifies an existing heap cell (no node,
attribute, content or child of the input is mutated), the returned root is
freshly allocated, and every node reference held by a freshly allocated
node points at a freshly allocated node — so every node of the result,
rewritten or not, is new.  Children are visited depth-first in order: on
the pure model the attachment accumulator grows exactly by the entries of
the depth-first source listing `tagSrcs`. -/
theorem inline_freshness :
    (∀ (gen : Nat → String) (fuel i ctr : Nat) (heap : List HNode)
        (acc : List (String × String)) (j ctr2 : Nat) (heap2 : List HNode)
        (acc2 : List (String × String)),
      processTagH gen fuel i heap ctr acc = some (j, heap2, ctr2, acc2) →
      (∀ k, k < heap.length → heap2[k]? = heap[k]?)
      ∧ heap.length ≤ j ∧ j < heap2.length
      ∧ (∀ k nd2, heap.length ≤ k → heap2[k]? = some nd2 →
          ∀ m, HChild.node m ∈ nd2.children → heap.length ≤ m ∧ m < heap2.length))
    ∧ (∀ (gen : Nat → String) (t : MJMLTag) (ctr : Nat) (acc : List (String × String)),
        TagWf t = true →
        processTag gen t ctr acc = .ok (rewTag gen ctr t, ctr + (tagSrcs t).length,
          insertAll acc (entries gen ctr (tagSrcs t)))) := by
  constructor
  · intro gen fuel i ctr heap acc j ctr2 heap2 acc2 h
    have hF := processTagH_frame gen fuel i ctr heap acc j ctr2 heap2 acc2 h
    exact ⟨hF.2.1, hF.2.2.1, hF.2.2.2.1, hF.2.2.2.2⟩
  · intro gen t ctr acc hw
    exact processTag_eq gen t ctr acc hw

/-- C3 witness: a concrete one-node heap run (computed by `rfl`) passed
through the freshness statement, and the pure traversal statement applied
to the concrete image node `wImgA`. -/
theorem inline_freshness_witness :
    processTagH (fun _ => "u") 2 0
        [⟨"mj-image", [("src", AttrVal.bytes [1])], [], ChildArg.none, true⟩] 0 []
      = some (1,
          [⟨"mj-image", [("src", AttrVal.bytes [1])], [], ChildArg.none, true⟩,
            ⟨"mj-image", [("src", AttrVal.str "cid:plot_u.png")], [], ChildArg.none, true⟩],
          1, [("plot_u.png", "AQ==")])
    ∧ ((∀ k, k < ([⟨"mj-image", [("src", AttrVal.bytes [1])], [], ChildArg.none, true⟩]
            : List HNode).length →
          ([⟨"mj-image", [("src", AttrVal.bytes [1])], [], ChildArg.none, true⟩,
            ⟨"mj-image", [("src", AttrVal.str "cid:plot_u.png")], [], ChildArg.none, true⟩]
            : List HNode)[k]?
            = ([⟨"mj-image", [("src", AttrVal.bytes [1])], [], ChildArg.none, true⟩]
                : List HNode)[k]?)
      ∧ ([⟨"mj-image", [("src", AttrVal.bytes [1])], [], ChildArg.none, true⟩]
            : List HNode).length ≤ 1
      ∧ 1 < ([⟨"mj-image", [("src", AttrVal.bytes [1])], [], ChildArg.none, true⟩,
            ⟨"mj-image", [("src", AttrVal.str "cid:plot_u.png")], [], ChildArg.none, true⟩]
            : List HNode).length
      ∧ (∀ k nd2,
          ([⟨"mj-image", [("src", AttrVal.bytes [1])], [], ChildArg.none, true⟩]
            : List HNode).length ≤ k →
          ([⟨"mj-image", [("src", AttrVal.bytes [1])], [], ChildArg.none, true⟩,
            ⟨"mj-image", [("src", AttrVal.str "cid:plot_u.png")], [], ChildArg.none, true⟩]
            : List HNode)[k]? = some nd2 →
          ∀ m, HChild.node m ∈ nd2.children →
            ([⟨"mj-image", [("src", AttrVal.bytes [1])], [], ChildArg.none, true⟩]
              : List HNode).length ≤ m
            ∧ m < ([⟨"mj-image", [("src", AttrVal.bytes [1])], [], ChildArg.none, true⟩,
                ⟨"mj-image", [("src", AttrVal.str "cid:plot_u.png")], [], ChildArg.none, true⟩]
                : List HNode).length))
    ∧ TagWf wImgA = true
    ∧ processTag (fun _ => "u") wImgA 0 []
        = .ok (rewTag (fun _ => "u") 0 wImgA, 0 + (tagSrcs wImgA).length,
            insertAll [] (entries (fun _ => "u") 0 (tagSrcs wImgA))) :=
  ⟨rfl,
    inline_freshness.1 (fun _ => "u") 2 0 0
      [⟨"mj-image", [("src", AttrVal.bytes [1])], [], ChildArg.none, true⟩] [] 1 1
      [⟨"mj-image", [("src", AttrVal.bytes [1])], [], ChildArg.none, true⟩,
        ⟨"mj-image", [("src", AttrVal.str "cid:plot_u.png")], [], ChildArg.none, true⟩]
      [("plot_u.png", "AQ==")] rfl,
    by decide,
    inline_freshness.2 (fun _ => "u") wImgA 0 [] (by decide)⟩

end NbMail

